import Mathlib

/-!
# A verification development for the `httpproxy` package

The package is a forward HTTP proxy written in Go (`src/httpproxy/utils.go`,
`src/httpproxy/reqs.go`).  This file embeds its parsing and serialising code in
Lean and proves properties of the embedding.

## Conventions of the embedding

* A Go `string` is a sequence of bytes.  It is embedded as `Str = List Char`,
  one `Char` per byte.  Every separator the code searches for (`' '`, `':'`,
  `": "`, `'\n'`, `"\r\n"`, `'?'`, `'/'`, `'#'`, `'@'`, `'%'`) is ASCII.
* Go's `int` is the 64-bit signed integer: values are `Int`, and the one place
  where the range matters (`strconv.Atoi`) checks it explicitly.
* A Go function returning `(value, error)` whose callers use the value only
  when the error is `nil` is embedded as a function into `Option`.
* The Go standard-library functions the package calls (`strings.Split`,
  `strings.HasSuffix`, `strconv.Atoi`, `url.Parse`, `bufio.Reader.ReadString`,
  `bufio.Reader.Read`, `io.ReadFull`, `bufio.Writer.WriteString`,
  `bufio.Writer.Flush`) are embedded from their Go sources, in the namespaces
  `Strings`, `Strconv`, `Url` and `Bufio`.
* A loop of the package is a recursive function with a bound on its rounds;
  the bound each caller passes is shown never to be used up.
* `make([]byte, n)` is embedded with the panic of the run time for a length
  that is negative or above the allocation limit (`Runtime.makeslice`).
* The two goroutines of `relay` are embedded by the results of their copies
  and by the order of their accesses to the variable they share, the named
  result `err` (`Interleaving`); accesses are taken to be atomic.
* The namespace `Spec` holds the vocabulary the statements are written in
  (what a base-10 integer, an absolute URL, a well-formed header are); its
  definitions use the data types of the embedding and none of its functions.
-/

/-- A Go string: a sequence of bytes, one `Char` per byte. -/
abbrev Str := List Char

/-! ## Definitions: package `strings` -/

namespace Strings

/-- Go `strings.Index(s, sep)`: the position of the first occurrence of `sep`
in `s`; Go's `-1` is `none`. -/
def Index : Str → Str → Option Nat
  | [], sep => if sep = [] then some 0 else none
  | c :: s, sep =>
    if sep.isPrefixOf (c :: s) then some 0 else (Index s sep).map (· + 1)

/-- The loop of Go `strings.genSplit(s, sep, 0, -1)` for a non-empty `sep`:
each round looks for the first `sep` in what is left, cuts the piece before it
off and continues after it; the loop ends when no `sep` is left.  The first
argument bounds the number of rounds. -/
def genSplit (sep : Str) : Nat → Str → List Str
  | 0, s => [s]
  | n + 1, s =>
    match Index s sep with
    | none => [s]
    | some m => s.take m :: genSplit sep n (s.drop (m + sep.length))

/-- Go `strings.Split(s, sep)` for a non-empty separator (the package only
splits on `" "`, `":"` and `": "`).  Go runs the loop `Count(s, sep)` times;
`len(s)` rounds are at least as many, and the loop stops by itself once no
separator is left. -/
def Split (s sep : Str) : List Str := genSplit sep s.length s

/-- Go `strings.HasSuffix(s, suffix)`. -/
def HasSuffix (s suffix : Str) : Bool := suffix.isSuffixOf s

/-- Go `strings.HasPrefix(s, pre)`. -/
def HasPrefix (s pre : Str) : Bool := pre.isPrefixOf s

end Strings

/-! ## Definitions: package `strconv` -/

namespace Strconv

/-- The digit loop of `strconv.Atoi` / `strconv.ParseUint` in base 10: every
byte must be a decimal digit; the value is accumulated most significant digit
first. -/
def digits : Str → Nat → Option Nat
  | [], n => some n
  | c :: s, n =>
    if 48 ≤ c.toNat ∧ c.toNat ≤ 57 then digits s (n * 10 + (c.toNat - 48)) else none

/-- Go `strconv.Atoi(s)` with a 64-bit `int`: an optional sign `+` or `-`,
then one or more decimal digits; the value must lie in `[-2^63, 2^63 - 1]`
(otherwise Go reports `ErrRange`).  Any error is `none`. -/
def Atoi (s : Str) : Option Int :=
  match s with
  | [] => none
  | c :: t =>
    let neg := c = '-'
    let ds := if c = '-' ∨ c = '+' then t else s
    if ds = [] then none
    else
      match digits ds 0 with
      | none => none
      | some n =>
        if neg then (if n ≤ 2 ^ 63 then some (-(n : Int)) else none)
        else (if n < 2 ^ 63 then some (n : Int) else none)

end Strconv

/-! ## Definitions: package `net/url` -/

namespace Url

/-- The fields of Go's `url.URL` that `url.Parse` fills and the package reads,
plus `Opaque` and `Fragment`. -/
structure URL where
  Scheme : Str := []
  Opaque : Str := []
  Host : Str := []
  Path : Str := []
  RawQuery : Str := []
  Fragment : Str := []
  deriving DecidableEq, Repr

/-- The modes of Go's `unescape` that `url.Parse` uses. -/
inductive encoding where
  | encodePath
  | encodeHost
  | encodeZone
  | encodeUserPassword
  | encodeFragment
  deriving DecidableEq, Repr

/-- Go `ishex`. -/
def ishex (c : Char) : Bool :=
  (48 ≤ c.toNat ∧ c.toNat ≤ 57) ∨ (97 ≤ c.toNat ∧ c.toNat ≤ 102) ∨ (65 ≤ c.toNat ∧ c.toNat ≤ 70)

/-- Go `unhex`. -/
def unhex (c : Char) : Nat :=
  if 48 ≤ c.toNat ∧ c.toNat ≤ 57 then c.toNat - 48
  else if 97 ≤ c.toNat ∧ c.toNat ≤ 102 then c.toNat - 97 + 10
  else if 65 ≤ c.toNat ∧ c.toNat ≤ 70 then c.toNat - 65 + 10
  else 0

/-- Go `shouldEscape(c, encodeHost)`: letters, digits, the sub-delimiters a
host may hold, `:`, `[`, `]`, `<`, `>`, `"` and the marks `-_.~` need no
escaping; every other byte does. -/
def shouldEscapeHost (c : Char) : Bool :=
  if (97 ≤ c.toNat ∧ c.toNat ≤ 122) ∨ (65 ≤ c.toNat ∧ c.toNat ≤ 90) ∨
      (48 ≤ c.toNat ∧ c.toNat ≤ 57) then false
  else if c ∈ ['!', '$', '&', '\'', '(', ')', '*', '+', ',', ';', '=', ':', '[', ']',
      '<', '>', '"'] then false
  else if c ∈ ['-', '_', '.', '~'] then false
  else true

/-- The first loop of Go `unescape(s, mode)`: every `%` must be followed by
two hex digits; in a host an escape may only stand for a non-ASCII byte (or be
`%25`); in a zone an escape must stand for a byte a host may hold (or a space,
or be `%25`); an unescaped ASCII byte of a host or zone must be one that needs
no escaping. -/
def unescapeValid (mode : encoding) : Str → Bool
  | [] => true
  | c :: rest =>
    if c = '%' then
      match rest with
      | a :: b :: rest2 =>
        if !ishex a || !ishex b then false
        else if mode = encoding.encodeHost ∧ unhex a < 8 ∧ [c, a, b] ≠ ['%', '2', '5'] then false
        else if mode = encoding.encodeZone ∧ [c, a, b] ≠ ['%', '2', '5'] ∧
            Char.ofNat (unhex a * 16 + unhex b) ≠ ' ' ∧
            shouldEscapeHost (Char.ofNat (unhex a * 16 + unhex b)) then false
        else unescapeValid mode rest2
      | _ => false
    else if (mode = encoding.encodeHost ∨ mode = encoding.encodeZone) ∧ c.toNat < 128 ∧
        shouldEscapeHost c then false
    else unescapeValid mode rest

/-- The second loop of Go `unescape`: replace each `%XY` by the byte with hex
digits `XY`.  (`+` stays `+`: none of the modes here is the query-component
mode.) -/
def unescapeBytes : Str → Str
  | [] => []
  | c :: rest =>
    if c = '%' then
      match rest with
      | a :: b :: rest2 => Char.ofNat (unhex a * 16 + unhex b) :: unescapeBytes rest2
      | _ => [c]
    else c :: unescapeBytes rest

/-- Go `unescape(s, mode)`. -/
def unescape (s : Str) (mode : encoding) : Option Str :=
  if unescapeValid mode s then some (unescapeBytes s) else none

/-- Go `stringContainsCTLByte`. -/
def stringContainsCTLByte (s : Str) : Bool :=
  s.any (fun b => b.toNat < 32 || b.toNat = 127)

/-- The loop of Go `getScheme`, at index `i` with `rest = rawURL[i:]`. -/
def getSchemeLoop (rawURL : Str) : Nat → Str → Option (Str × Str)
  | _, [] => some ([], rawURL)
  | i, c :: rest =>
    if (97 ≤ c.toNat ∧ c.toNat ≤ 122) ∨ (65 ≤ c.toNat ∧ c.toNat ≤ 90) then
      getSchemeLoop rawURL (i + 1) rest
    else if (48 ≤ c.toNat ∧ c.toNat ≤ 57) ∨ c = '+' ∨ c = '-' ∨ c = '.' then
      if i = 0 then some ([], rawURL) else getSchemeLoop rawURL (i + 1) rest
    else if c = ':' then
      if i = 0 then none else some (rawURL.take i, rest)
    else some ([], rawURL)

/-- Go `getScheme(rawURL)`: `(scheme, rest)`; `none` is the error
"missing protocol scheme". -/
def getScheme (rawURL : Str) : Option (Str × Str) := getSchemeLoop rawURL 0 rawURL

/-- Go `strings.ToLower` on ASCII bytes (a scheme holds nothing else). -/
def ToLower (s : Str) : Str :=
  s.map (fun c => if 65 ≤ c.toNat ∧ c.toNat ≤ 90 then Char.ofNat (c.toNat + 32) else c)

/-- Go `strings.Cut(s, sep)` for a one-byte separator: the text before and
after the first `sep`; without a `sep`, all of `s` and the empty string. -/
def Cut (s : Str) (sep : Char) : Str × Str :=
  match Strings.Index s [sep] with
  | some i => (s.take i, s.drop (i + 1))
  | none => (s, [])

/-- Go `strings.LastIndex(s, sep)` for a one-byte separator; `-1` is `none`. -/
def LastIndex : Str → Char → Option Nat
  | [], _ => none
  | c :: s, sep =>
    match LastIndex s sep with
    | some i => some (i + 1)
    | none => if c = sep then some 0 else none

/-- Go `validOptionalPort`: empty, or `:` followed by decimal digits only. -/
def validOptionalPort : Str → Bool
  | [] => true
  | c :: rest => c = ':' && rest.all (fun b => 48 ≤ b.toNat && b.toNat ≤ 57)

/-- Go `validUserinfo`. -/
def validUserinfo (s : Str) : Bool :=
  s.all (fun r =>
    (65 ≤ r.toNat && r.toNat ≤ 90) || (97 ≤ r.toNat && r.toNat ≤ 122) ||
    (48 ≤ r.toNat && r.toNat ≤ 57) ||
    decide (r ∈ ['-', '.', '_', ':', '~', '!', '$', '&', '\'', '(', ')', '*', '+', ',', ';',
      '=', '%', '@']))

/-- Go `parseHost` of `net/url` (not the package's own `parseHost`): an
IP literal in brackets may carry a zone; otherwise what follows the last colon
must be a valid optional port; the host is then unescaped.  Later releases of
Go also look for the bracket anywhere in the host and require the text between
the brackets to be an IPv6 address (`netip.ParseAddr`); that check is not
embedded.  It bears only on hosts that hold `[`, and such a host, when those
releases accept it, holds two colons or more, so that the package's own
`parseHost` rejects it. -/
def parseHost (host : Str) : Option Str :=
  if Strings.HasPrefix host ['['] then
    match LastIndex host ']' with
    | none => none
    | some i =>
      if !validOptionalPort (host.drop (i + 1)) then none
      else
        match Strings.Index (host.take i) ['%', '2', '5'] with
        | some zone =>
          match unescape (host.take zone) encoding.encodeHost,
                unescape ((host.take i).drop zone) encoding.encodeZone,
                unescape (host.drop i) encoding.encodeHost with
          | some host1, some host2, some host3 => some (host1 ++ host2 ++ host3)
          | _, _, _ => none
        | none => unescape host encoding.encodeHost
  else
    match LastIndex host ':' with
    | some i =>
      if !validOptionalPort (host.drop i) then none else unescape host encoding.encodeHost
    | none => unescape host encoding.encodeHost

/-- Go `parseAuthority`, keeping the host only: the host is what follows the
last `@`; the user information before it must be valid and unescape without
error. -/
def parseAuthority (authority : Str) : Option Str :=
  match LastIndex authority '@' with
  | none => parseHost authority
  | some i =>
    match parseHost (authority.drop (i + 1)) with
    | none => none
    | some host =>
      let userinfo := authority.take i
      if !validUserinfo userinfo then none
      else if !userinfo.contains ':' then
        (unescape userinfo encoding.encodeUserPassword).map (fun _ => host)
      else
        match unescape (Cut userinfo ':').1 encoding.encodeUserPassword,
              unescape (Cut userinfo ':').2 encoding.encodeUserPassword with
        | some _, some _ => some host
        | _, _ => none

/-- The query step of Go `parse`: when the text ends in its only `?` the
query is empty (`ForceQuery`) and the `?` is dropped; otherwise the text is cut
at its first `?`. -/
def cutQuery (rest : Str) : Str × Str :=
  if Strings.HasSuffix rest ['?'] && rest.count '?' == 1 then (rest.dropLast, [])
  else Cut rest '?'

/-- The authority step of Go `parse`, for a text that starts with `//`: the
authority runs from after the `//` to the next `/`, the rest starts at that
`/`. -/
def splitAuthority (rest : Str) : Str × Str :=
  match Strings.Index (rest.drop 2) ['/'] with
  | some i => ((rest.drop 2).take i, (rest.drop 2).drop i)
  | none => (rest.drop 2, [])

/-- Go `parse(rawURL, false)`: reject control bytes; split off the scheme and
the query; a rootless rest after a scheme is opaque; a rest starting with `//`
has an authority up to the next `/`; the rest is the path, unescaped. -/
def parse (rawURL : Str) : Option URL :=
  if stringContainsCTLByte rawURL then none
  else if rawURL = ['*'] then some { Path := ['*'] }
  else
    match getScheme rawURL with
    | none => none
    | some (scheme0, rest0) =>
      let scheme := ToLower scheme0
      let rest := (cutQuery rest0).1
      let rawQuery := (cutQuery rest0).2
      if !Strings.HasPrefix rest ['/'] ∧ scheme ≠ [] then
        some { Scheme := scheme, Opaque := rest, RawQuery := rawQuery }
      else if !Strings.HasPrefix rest ['/'] ∧ (Cut rest '/').1.contains ':' then none
      else if (scheme ≠ [] ∨ !Strings.HasPrefix rest ['/', '/', '/']) ∧
          Strings.HasPrefix rest ['/', '/'] then
        match parseAuthority (splitAuthority rest).1 with
        | none => none
        | some host =>
          match unescape (splitAuthority rest).2 encoding.encodePath with
          | none => none
          | some path => some { Scheme := scheme, Host := host, Path := path, RawQuery := rawQuery }
      else
        match unescape rest encoding.encodePath with
        | none => none
        | some path => some { Scheme := scheme, Path := path, RawQuery := rawQuery }

/-- Go `url.Parse(rawURL)`: cut the fragment off at the first `#`, parse the
rest, then unescape the fragment. -/
def Parse (rawURL : Str) : Option URL :=
  match parse (Cut rawURL '#').1 with
  | none => none
  | some url =>
    if (Cut rawURL '#').2 = [] then some url
    else
      match unescape (Cut rawURL '#').2 encoding.encodeFragment with
      | none => none
      | some f => some { url with Fragment := f }

end Url

/-! ## Definitions: package `bufio` -/

namespace Bufio

/-- A `bufio.Reader` on a connection, seen from the reading side: `data` is
what the peer sends that has not been consumed yet; `chunks` gives the number
of bytes the coming calls of `Read` find available; `eof` tells how the stream
ends once `data` is used up: with `io.EOF` (`true`) or with another read error
(`false`). -/
structure Reader where
  data : Str
  chunks : List Nat := []
  eof : Bool := true
  deriving DecidableEq, Repr

/-- Go `(*bufio.Reader).ReadString(delim)`: the bytes up to and including the
first `delim`, with a nil error; when the stream ends first, all the bytes left
and the error of the stream.  The flag is `true` when the error is not nil. -/
def Reader.ReadString (r : Reader) (delim : Char) : (Str × Bool) × Reader :=
  match Strings.Index r.data [delim] with
  | some i => ((r.data.take (i + 1), false), { r with data := r.data.drop (i + 1) })
  | none => ((r.data, true), { r with data := [] })

/-- The errors a read ends with: `io.EOF` or any other error. -/
inductive ReadErr where
  | eof
  | other
  deriving DecidableEq, Repr

/-- How the stream of a reader ends. -/
def Reader.ending (r : Reader) : ReadErr := if r.eof then ReadErr.eof else ReadErr.other

/-- Go `(*bufio.Reader).Read(p)` with `len(p) = size > 0`: at the end of the
stream no byte and the error of the stream; otherwise at least one byte and at
most `size`, as many as the next entry of `chunks` says are available (all that
is left when `chunks` is used up), with a nil error. -/
def Reader.Read (r : Reader) (size : Nat) : (Str × Option ReadErr) × Reader :=
  if r.data = [] then (([], some r.ending), r)
  else
    let avail := min size r.data.length
    let n :=
      match r.chunks with
      | [] => avail
      | k :: _ => max 1 (min k avail)
    ((r.data.take n, none), { r with data := r.data.drop n, chunks := r.chunks.tail })

/-- Go `io.ReadFull(reader, buf)` with `len(buf) = n`: exactly `n` bytes and a
nil error when the stream holds that many; otherwise all the bytes left and an
error (`true`). -/
def Reader.ReadFull (r : Reader) (n : Nat) : (Str × Bool) × Reader :=
  if n ≤ r.data.length then ((r.data.take n, false), { r with data := r.data.drop n })
  else ((r.data, true), { r with data := [] })

/-- A `bufio.Writer` on a connection: `out` is what has been flushed to the
connection, `buf` what has been accepted and not flushed yet, `err` the sticky
error of the writer, and `faults` tells for each coming operation whether the
connection fails under it.  The buffer is unbounded here: the flush Go does by
itself when 4096 bytes are pending is not represented, only the order of the
bytes is. -/
structure Writer where
  out : Str := []
  buf : Str := []
  err : Bool := false
  faults : List Bool := []
  deriving DecidableEq, Repr

/-- Go `(*bufio.Writer).WriteString(s)` (and `Write`): append `s` to the
pending bytes; the flag is `true` when the call returns a non-nil error. -/
def Writer.WriteString (w : Writer) (s : Str) : Bool × Writer :=
  if w.err then (true, w)
  else
    match w.faults with
    | true :: fs => (true, { w with err := true, faults := fs })
    | false :: fs => (false, { w with buf := w.buf ++ s, faults := fs })
    | [] => (false, { w with buf := w.buf ++ s })

/-- Go `(*bufio.Writer).Flush()`: hand the pending bytes to the connection. -/
def Writer.Flush (w : Writer) : Bool × Writer :=
  if w.err then (true, w)
  else
    match w.faults with
    | true :: fs => (true, { w with err := true, faults := fs })
    | false :: fs => (false, { w with out := w.out ++ w.buf, buf := [], faults := fs })
    | [] => (false, { w with out := w.out ++ w.buf, buf := [] })

/-- All the bytes a writer has accepted so far, in order. -/
def Writer.written (w : Writer) : Str := w.out ++ w.buf

end Bufio

/-! ## Definitions: the Go run time -/

namespace Runtime

/-- Go `maxAlloc`, the largest size of one allocation, on a 64-bit platform
with 48 bits of heap address (linux/amd64): 2^48 bytes. -/
def maxAlloc : Nat := 281474976710656

/-- Go `makeslice` for `make([]byte, len)`: the length of the buffer, or
`none` when the run time panics (`makeslice: len out of range`), which it does
for a negative length and for a length above `maxAlloc`.  A length within the
limit that the machine has no memory for ends the program in another way and
is not represented. -/
def makeslice (len : Int) : Option Nat :=
  if len < 0 ∨ (maxAlloc : Int) < len then none else some len.toNat

end Runtime

/-! ## Definitions: package `httpproxy` -/

namespace Httpproxy

/-- Go `newLineFlag`. -/
def newLineFlag : Str := ['\r', '\n']

/-- Go `type request struct`. -/
structure request where
  method : Str
  scheme : Str
  host : Str
  port : Int
  path : Str
  query : Str
  protocol : Str
  deriving DecidableEq, Repr

/-- Go `type header struct`. -/
structure header where
  name : Str
  value : Str
  deriving DecidableEq, Repr

/-- Go `readLine`: read up to the first `'\n'`; an error of the read, a line of
fewer than 2 bytes and a line that does not end in `"\r\n"` are errors;
otherwise the line without its last two bytes.  The reader is returned as the
call leaves it. -/
def readLine (reader : Bufio.Reader) : Option Str × Bufio.Reader :=
  match reader.ReadString '\n' with
  | ((line, err), reader1) =>
    if err then (none, reader1)
    else if line.length < 2 then (none, reader1)
    else if Strings.HasSuffix line newLineFlag then (some (line.take (line.length - 2)), reader1)
    else (none, reader1)

/-- Go `parseHost` (`utils.go`): split the authority on `":"`; one segment
gives port 80, two segments give the port `Atoi` reads from the second, any
other number of segments is an error. -/
def parseHost (line : Str) : Option (Str × Int) :=
  match Strings.Split line [':'] with
  | [host] => some (host, 80)
  | [host, p] =>
    match Strconv.Atoi p with
    | some port => some (host, port)
    | none => none
  | _ => none

/-- Go `parseRequestLine`: split on `" "`; fewer than 3 fields is an error; a
`CONNECT` line takes host and port from the second field; any other line
parses the second field as a URL and takes host and port from the URL's
host. -/
def parseRequestLine (requestLine : Str) : Option request :=
  match Strings.Split requestLine [' '] with
  | s0 :: s1 :: s2 :: _ =>
    if s0 = "CONNECT".toList then
      match parseHost s1 with
      | none => none
      | some (host, port) =>
        some { method := s0, scheme := [], host := host, port := port, path := [], query := [],
               protocol := s2 }
    else
      match Url.Parse s1 with
      | none => none
      | some rawUrl =>
        match parseHost rawUrl.Host with
        | none => none
        | some (host, port) =>
          some { method := s0, scheme := rawUrl.Scheme, host := host, port := port,
                 path := rawUrl.Path, query := rawUrl.RawQuery, protocol := s2 }
  | _ => none

/-- Go `buildReq`: read the first line and parse it. -/
def buildReq (client : Bufio.Reader) : Option request × Bufio.Reader :=
  match readLine client with
  | (none, client1) => (none, client1)
  | (some firstLine, client1) => (parseRequestLine firstLine, client1)

/-- Go `parseHeader`: split on `": "`; anything but exactly two segments is an
error. -/
def parseHeader (line : Str) : Option header :=
  match Strings.Split line [':', ' '] with
  | [n, v] => some { name := n, value := v }
  | _ => none

/-- The loop of Go `readHeaders`, with the headers accumulated so far: an
error of `readLine` or `parseHeader` ends it with an error, an empty line ends
it with the headers, a header named `Connection` is skipped, any other header
is appended.  The first argument bounds the number of rounds. -/
def readHeadersLoop : Nat → Bufio.Reader → List header → Option (List header) × Bufio.Reader
  | 0, reader, _ => (none, reader)
  | n + 1, reader, headers =>
    match readLine reader with
    | (none, reader1) => (none, reader1)
    | (some line, reader1) =>
      if line.length = 0 then (some headers, reader1)
      else
        match parseHeader line with
        | none => (none, reader1)
        | some h =>
          if h.name = "Connection".toList then readHeadersLoop n reader1 headers
          else readHeadersLoop n reader1 (headers ++ [h])

/-- Go `readHeaders`.  Each round but the last consumes at least two bytes, so
`len(data) + 1` rounds are never used up. -/
def readHeaders (reader : Bufio.Reader) : Option (List header) × Bufio.Reader :=
  readHeadersLoop (reader.data.length + 1) reader []

/-- The `for` loop of Go `writeHeaders`: write `name: value\r\n` for each
header, stopping at the first error. -/
def writeHeadersLoop (writer : Bufio.Writer) : List header → Bool × Bufio.Writer
  | [] => (false, writer)
  | h :: hs =>
    match writer.WriteString (h.name ++ [':', ' '] ++ h.value ++ ['\r', '\n']) with
    | (true, writer1) => (true, writer1)
    | (false, writer1) => writeHeadersLoop writer1 hs

/-- Go `writeHeaders`: the header lines, then `"\r\n"`, then a flush. -/
def writeHeaders (writer : Bufio.Writer) (headers : List header) : Bool × Bufio.Writer :=
  match writeHeadersLoop writer headers with
  | (true, writer1) => (true, writer1)
  | (false, writer1) =>
    match writer1.WriteString ['\r', '\n'] with
    | (true, writer2) => (true, writer2)
    | (false, writer2) => writer2.Flush

/-- Go `writeRemoteReqFirstLine`: write `METHOD PATH PROTOCOL\r\n`, where the
path is `/` when the request has none and `?query` follows a non-empty
query. -/
def writeRemoteReqFirstLine (writer : Bufio.Writer) (req : request) : Bool × Bufio.Writer :=
  let path0 := if req.path = [] then ['/'] else req.path
  let path := if req.query ≠ [] then path0 ++ ['?'] ++ req.query else path0
  let line := req.method ++ [' '] ++ path ++ [' '] ++ req.protocol ++ ['\r', '\n']
  writer.WriteString line

/-- Go `responseConnectReq`: write `PROTOCOL 200 Connection established\r\n`,
then `\r\n`, then flush; the first error ends it. -/
def responseConnectReq (client : Bufio.Writer) (req : request) : Bool × Bufio.Writer :=
  match client.WriteString (req.protocol ++ " 200 Connection established\r\n".toList) with
  | (true, client1) => (true, client1)
  | (false, client1) =>
    match client1.WriteString ['\r', '\n'] with
    | (true, client2) => (true, client2)
    | (false, client2) => client2.Flush

/-- How a call of `transferData` ends: `nil` after the bound was reached,
`io.EOF`, another read error, or a write error. -/
inductive TransferEnd where
  | bound
  | eof
  | readError
  | writeError
  deriving DecidableEq, Repr

/-- The writing step of the loop of Go `transferData`: when bytes were read,
write them and flush; the first error ends the step. -/
def writeChunk (dest : Bufio.Writer) (bytes : Str) : Bool × Bufio.Writer :=
  if bytes.length > 0 then
    match dest.WriteString bytes with
    | (true, dest1) => (true, dest1)
    | (false, dest1) => dest1.Flush
  else (false, dest)

/-- The `for` loop of Go `transferData`, with `totalBytes` as it stands: read
up to 8192 bytes; a read error other than `io.EOF` ends the loop; bytes read
are written and flushed, a write error ends the loop; the loop ends with `nil`
once `size` is not 0 and `totalBytes` has reached it, and with `io.EOF` once
the read returned `io.EOF`.  The first argument bounds the number of
rounds. -/
def transferDataLoop : Nat → Bufio.Reader → Bufio.Writer → Int → Int →
    TransferEnd × Bufio.Reader × Bufio.Writer
  | 0, source, dest, _, _ => (TransferEnd.readError, source, dest)
  | n + 1, source, dest, size, totalBytes =>
    match source.Read 8192 with
    | ((bytes, readErr), source1) =>
      if readErr = some Bufio.ReadErr.other then (TransferEnd.readError, source1, dest)
      else
        match writeChunk dest bytes with
        | (true, dest1) => (TransferEnd.writeError, source1, dest1)
        | (false, dest1) =>
          if size ≠ 0 ∧ totalBytes + bytes.length ≥ size then (TransferEnd.bound, source1, dest1)
          else if readErr = some Bufio.ReadErr.eof then (TransferEnd.eof, source1, dest1)
          else transferDataLoop n source1 dest1 size (totalBytes + bytes.length)

/-- Go `transferData`.  Every round but the last consumes at least one byte,
so `len(data) + 1` rounds are never used up. -/
def transferData (source : Bufio.Reader) (dest : Bufio.Writer) (size : Int) :
    TransferEnd × Bufio.Reader × Bufio.Writer :=
  transferDataLoop (source.data.length + 1) source dest size 0

/-- How a step of a session ends: without error, with an error returned, or
with a run-time panic. -/
inductive StepEnd where
  | ok
  | error
  | panic
  deriving DecidableEq, Repr

/-- Go `transferFixedRequestBody`: at the first header named `Content-Length`,
read its value with `Atoi` (an error is returned), allocate a buffer of that
length (`make` panics on a negative length and on a length above the
allocation limit), fill it with `io.ReadFull` (an error is returned), write it
and flush.  Without such a header nothing is read or written. -/
def transferFixedRequestBody (reader : Bufio.Reader) (writer : Bufio.Writer) :
    List header → StepEnd × Bufio.Reader × Bufio.Writer
  | [] => (StepEnd.ok, reader, writer)
  | h :: hs =>
    if h.name = "Content-Length".toList then
      match Strconv.Atoi h.value with
      | none => (StepEnd.error, reader, writer)
      | some length =>
        match Runtime.makeslice length with
        | none => (StepEnd.panic, reader, writer)
        | some bufLen =>
          match reader.ReadFull bufLen with
          | ((_, true), reader1) => (StepEnd.error, reader1, writer)
          | ((buf, false), reader1) =>
            match writer.WriteString buf with
            | (true, writer1) => (StepEnd.error, reader1, writer1)
            | (false, writer1) =>
              match writer1.Flush with
              | (true, writer2) => (StepEnd.error, reader1, writer2)
              | (false, writer2) => (StepEnd.ok, reader1, writer2)
    else transferFixedRequestBody reader writer hs

/-- The scan of the response headers in Go `process`: the value of the first
header named `Content-Length`, read with `Atoi`; 0 without such a header;
`none` when `Atoi` fails. -/
def remoteContentLen : List header → Option Int
  | [] => some 0
  | h :: hs => if h.name = "Content-Length".toList then Strconv.Atoi h.value
               else remoteContentLen hs

/-- What a session does to the outside, in order. -/
inductive Event where
  | dial (host : Str) (port : Int)
  | relayStarted (remoteDataSize : Int)
  | closeRemote
  | closeClient
  deriving DecidableEq, Repr

/-- The two buffered halves of a connection. -/
structure Conn where
  reader : Bufio.Reader
  writer : Bufio.Writer
  deriving DecidableEq, Repr

/-- What `process` leaves behind: how it ended, what it did to the outside,
and the writers of both connections (the upstream one once it was opened). -/
structure Outcome where
  result : StepEnd
  events : List Event
  client : Bufio.Writer
  remote : Option Bufio.Writer
  deriving DecidableEq, Repr

/-- The accesses to the named result `err` of Go `relay`, which both
goroutines share, that bear on the early close: the goroutine that copies from
the client to the upstream stores the result of its copy in `err`
(reqs.go:138) and later tests `err == io.EOF` (reqs.go:142); the goroutine
that copies from the upstream to the client stores the result of its copy in
the same `err` (reqs.go:150). -/
inductive RelayStep where
  | upAssign
  | upTest
  | downAssign
  deriving DecidableEq, Repr

/-- The orders in which the three accesses can take place: the goroutine of
the upstream-to-client copy stores its result before the other goroutine
stores its own, between that store and the test, or after the test. -/
inductive Interleaving where
  | downFirst
  | downBetween
  | downLast
  deriving DecidableEq, Repr

/-- The accesses in the order they take place. -/
def Interleaving.steps : Interleaving → List RelayStep
  | Interleaving.downFirst => [RelayStep.downAssign, RelayStep.upAssign, RelayStep.upTest]
  | Interleaving.downBetween => [RelayStep.upAssign, RelayStep.downAssign, RelayStep.upTest]
  | Interleaving.downLast => [RelayStep.upAssign, RelayStep.upTest, RelayStep.downAssign]

/-- The shared variable `err` of Go `relay` (`TransferEnd.bound` stands for
`nil`) and whether `proxyFd.Close()` was called. -/
structure RelayState where
  err : TransferEnd
  closed : Bool
  deriving DecidableEq, Repr

/-- One access to the shared `err`, where `up` and `down` are what the two
copies return: a store overwrites `err`, the test closes the upstream socket
when `err` is `io.EOF` at that moment. -/
def relayStep (up down : TransferEnd) (s : RelayState) : RelayStep → RelayState
  | RelayStep.upAssign => { s with err := up }
  | RelayStep.downAssign => { s with err := down }
  | RelayStep.upTest => if s.err = TransferEnd.eof then { s with closed := true } else s

/-- Go `relay` followed by the join: the copy from the client to the upstream
runs without bound, the copy from the upstream to the client is bounded by
`remoteDataSize`, and the goroutine of the first copy closes the upstream
socket when it finds `io.EOF` in the shared `err`, which starts as `nil` and
is stored to by both goroutines in the order `order` gives.  The two copies
work on disjoint buffers; what the early close does to the second copy shows
in the model as the end of the upstream reader's stream.  The result holds the
ends of both copies, the events and the two writers. -/
def relay (order : Interleaving) (client remote : Conn) (remoteDataSize : Int) :
    (TransferEnd × TransferEnd) × List Event × Bufio.Writer × Bufio.Writer :=
  match transferData client.reader remote.writer 0,
        transferData remote.reader client.writer remoteDataSize with
  | (up, _, remoteWriter), (down, _, clientWriter) =>
    ((up, down),
     Event.relayStarted remoteDataSize ::
       (if (order.steps.foldl (relayStep up down)
              { err := TransferEnd.bound, closed := false }).closed
        then [Event.closeRemote] else []),
     clientWriter, remoteWriter)

/-- The end of Go `process`: the relay, the join, then both sockets are
closed and `nil` is returned. -/
def runRelay (order : Interleaving) (events : List Event) (client remote : Conn)
    (remoteDataSize : Int) : Outcome :=
  match relay order client remote remoteDataSize with
  | (_, relayEvents, clientWriter, remoteWriter) =>
    { result := StepEnd.ok,
      events := events ++ relayEvents ++ [Event.closeClient, Event.closeRemote],
      client := clientWriter, remote := some remoteWriter }

/-- Go `process` for one client connection.  `dial` stands for `net.Dial`: the
upstream connection for a host and a port, or `none` when the connection
fails; `order` is the order in which the goroutines of `relay` get at their
shared `err`.  Every `return fmt.Errorf(...)` ends the session with
`StepEnd.error` and the events so far. -/
def process (order : Interleaving) (dial : Str → Int → Option Conn) (client : Conn) : Outcome :=
  match buildReq client.reader with
  | (none, _) =>
    { result := StepEnd.error, events := [], client := client.writer, remote := none }
  | (some req, clientReader1) =>
    match readHeaders clientReader1 with
    | (none, _) =>
      { result := StepEnd.error, events := [], client := client.writer, remote := none }
    | (some clientHeaders, clientReader2) =>
      match dial req.host req.port with
      | none =>
        { result := StepEnd.error, events := [Event.dial req.host req.port],
          client := client.writer, remote := none }
      | some remote =>
        if req.method = "CONNECT".toList then
          match responseConnectReq client.writer req with
          | (true, clientWriter1) =>
            { result := StepEnd.error, events := [Event.dial req.host req.port],
              client := clientWriter1, remote := some remote.writer }
          | (false, clientWriter1) =>
            runRelay order [Event.dial req.host req.port]
              { reader := clientReader2, writer := clientWriter1 } remote 0
        else
          match writeRemoteReqFirstLine remote.writer req with
          | (true, remoteWriter1) =>
            { result := StepEnd.error, events := [Event.dial req.host req.port],
              client := client.writer, remote := some remoteWriter1 }
          | (false, remoteWriter1) =>
            -- the error of `writeHeaders` is dropped (`fmt.Errorf` without `return`)
            match transferFixedRequestBody clientReader2
                (writeHeaders remoteWriter1 clientHeaders).2 clientHeaders with
            | (StepEnd.panic, _, remoteWriter3) =>
              { result := StepEnd.panic, events := [Event.dial req.host req.port],
                client := client.writer, remote := some remoteWriter3 }
            | (StepEnd.error, _, remoteWriter3) =>
              { result := StepEnd.error, events := [Event.dial req.host req.port],
                client := client.writer, remote := some remoteWriter3 }
            | (StepEnd.ok, clientReader3, remoteWriter3) =>
              match readLine remote.reader with
              | (none, _) =>
                { result := StepEnd.error, events := [Event.dial req.host req.port],
                  client := client.writer, remote := some remoteWriter3 }
              | (some remoteRespFirstLine, remoteReader1) =>
                -- the error of `client.WriteString` is not looked at
                match (client.writer.WriteString (remoteRespFirstLine ++ ['\r', '\n'])).2.Flush with
                | (true, clientWriter2) =>
                  { result := StepEnd.error, events := [Event.dial req.host req.port],
                    client := clientWriter2, remote := some remoteWriter3 }
                | (false, clientWriter2) =>
                  match readHeaders remoteReader1 with
                  | (none, _) =>
                    { result := StepEnd.error, events := [Event.dial req.host req.port],
                      client := clientWriter2, remote := some remoteWriter3 }
                  | (some remoteRespHeaders, remoteReader2) =>
                    match writeHeaders clientWriter2 remoteRespHeaders with
                    | (true, clientWriter3) =>
                      { result := StepEnd.error, events := [Event.dial req.host req.port],
                        client := clientWriter3, remote := some remoteWriter3 }
                    | (false, clientWriter3) =>
                      match remoteContentLen remoteRespHeaders with
                      | none =>
                        { result := StepEnd.error, events := [Event.dial req.host req.port],
                          client := clientWriter3, remote := some remoteWriter3 }
                      | some size =>
                        runRelay order [Event.dial req.host req.port]
                          { reader := clientReader3, writer := clientWriter3 }
                          { reader := remoteReader2, writer := remoteWriter3 } size

end Httpproxy

/-! ## Definitions: the vocabulary of the specification -/

namespace Spec

/-- Every byte of `ds` is a decimal digit. -/
def allDigits (ds : Str) : Bool := ds.all (fun c => 48 ≤ c.toNat && c.toNat ≤ 57)

/-- The number a string of decimal digits denotes. -/
def decimalValue (ds : Str) : Nat := ds.foldl (fun n c => n * 10 + (c.toNat - 48)) 0

/-- The integer a text denotes as a base-10 integer: an optional sign `+` or
`-` followed by one or more decimal digits; `none` when the text is not of
that form.  The value is a mathematical integer, of any size. -/
def base10Int (t : Str) : Option Int :=
  let body := if t.head? = some '-' ∨ t.head? = some '+' then t.tail else t
  if body ≠ [] ∧ allDigits body then
    some (if t.head? = some '-' then -(decimalValue body : Int) else (decimalValue body : Int))
  else none

/-- The integers a Go `int` of 64 bits holds. -/
def fitsInt (v : Int) : Prop := -(2 : Int) ^ 63 ≤ v ∧ v < (2 : Int) ^ 63

instance (v : Int) : Decidable (fitsInt v) := by unfold fitsInt; infer_instance

/-- The text of an authority before its first colon. -/
def beforeColon (a : Str) : Str := a.takeWhile (fun c => c != ':')

/-- The text of an authority after its first colon. -/
def afterColon (a : Str) : Str := (a.dropWhile (fun c => c != ':')).drop 1

/-- A header a `Name: Value` line can carry: neither the name nor the value
holds the separator `": "` or a line feed. -/
def wellFormedHeader (h : Httpproxy.header) : Prop :=
  ¬ [':', ' '] <:+: h.name ∧ ¬ [':', ' '] <:+: h.value ∧ '\n' ∉ h.name ∧ '\n' ∉ h.value

instance (h : Httpproxy.header) : Decidable (wellFormedHeader h) := by
  unfold wellFormedHeader; infer_instance

/-- The line `Name: Value\r\n` of a header. -/
def headerLine (h : Httpproxy.header) : Str :=
  h.name ++ [':', ' '] ++ h.value ++ ['\r', '\n']

/-- The lines of the headers, one after the other, in order. -/
def headerLines : List Httpproxy.header → Str
  | [] => []
  | h :: hs => headerLine h ++ headerLines hs

/-- A header block: the lines of the headers followed by the blank line
`\r\n`. -/
def headerBlock (hs : List Httpproxy.header) : Str := headerLines hs ++ ['\r', '\n']

/-- The headers whose name is not exactly `Connection`, in order. -/
def withoutConnection (hs : List Httpproxy.header) : List Httpproxy.header :=
  hs.filter (fun h => decide (h.name ≠ "Connection".toList))

/-- A writer on which no operation has failed and none will. -/
def noFault (w : Bufio.Writer) : Prop := w.err = false ∧ ∀ b ∈ w.faults, b = false

instance (w : Bufio.Writer) : Decidable (noFault w) := by
  unfold noFault; infer_instance

/-- An ASCII letter. -/
def isAlpha (c : Char) : Bool :=
  (97 ≤ c.toNat && c.toNat ≤ 122) || (65 ≤ c.toNat && c.toNat ≤ 90)

/-- A decimal digit. -/
def isDigit (c : Char) : Bool := 48 ≤ c.toNat && c.toNat ≤ 57

/-- A hexadecimal digit. -/
def isHex (c : Char) : Bool :=
  isDigit c || (97 ≤ c.toNat && c.toNat ≤ 102) || (65 ≤ c.toNat && c.toNat ≤ 70)

/-- A URL scheme (RFC 3986, 3.1): a letter followed by letters, digits, `+`,
`-` and `.`. -/
def isScheme : Str → Bool
  | [] => false
  | c :: t => isAlpha c && t.all (fun x => isAlpha x || isDigit x || x == '+' || x == '-' || x == '.')

/-- A byte of a registered host name written without escapes (RFC 3986,
3.2.2): an unreserved byte or a sub-delimiter. -/
def isHostChar (c : Char) : Bool :=
  isAlpha c || isDigit c ||
    decide (c ∈ ['-', '.', '_', '~', '!', '$', '&', '\'', '(', ')', '*', '+', ',', ';', '='])

/-- A host written without escapes. -/
def isHost (h : Str) : Bool := h.all isHostChar

/-- A port: one or more decimal digits denoting a number below 2^63. -/
def isPort (p : Str) : Bool := p ≠ [] && allDigits p && decide (decimalValue p < 2 ^ 63)

/-- A byte that is neither a control byte nor a space. -/
def isVisible (c : Char) : Bool := 32 < c.toNat && c.toNat != 127

/-- Every `%` of the text is followed by two hexadecimal digits. -/
def escapesOk : Str → Bool
  | [] => true
  | c :: rest =>
    if c = '%' then
      match rest with
      | a :: b :: rest2 => isHex a && isHex b && escapesOk rest2
      | _ => false
    else escapesOk rest

/-- A URL path: empty or starting with `/`, made of visible bytes other than
`?` and `#`, with well-formed escapes. -/
def isPath (p : Str) : Bool :=
  (p == [] || p.head? == some '/') &&
    p.all (fun c => isVisible c && c != '?' && c != '#') && escapesOk p

/-- A URL query: visible bytes other than `#`. -/
def isQuery (q : Str) : Bool := q.all (fun c => isVisible c && c != '#')

/-- The text `[:port]` of a URL. -/
def portText (port : Option Str) : Str :=
  match port with
  | none => []
  | some p => ':' :: p

/-- The text `[?query]` of a URL. -/
def queryText (query : Option Str) : Str :=
  match query with
  | none => []
  | some q => '?' :: q

/-- The text `scheme://host[:port][path][?query]` of an absolute URL. -/
def absoluteURL (scheme host : Str) (port : Option Str) (path : Str) (query : Option Str) : Str :=
  scheme ++ [':', '/', '/'] ++ host ++ portText port ++ path ++ queryText query

/-- The lower-case form of an ASCII text. -/
def asciiLower (s : Str) : Str :=
  s.map (fun c => if 65 ≤ c.toNat ∧ c.toNat ≤ 90 then Char.ofNat (c.toNat + 32) else c)

/-- The port a URL names: the number its port text denotes, 80 without one. -/
def portOf (port : Option Str) : Int :=
  match port with
  | none => 80
  | some p => (decimalValue p : Int)

/-- The value of a hexadecimal digit. -/
def hexValue (c : Char) : Nat :=
  if isDigit c then c.toNat - 48
  else if 97 ≤ c.toNat ∧ c.toNat ≤ 102 then c.toNat - 87
  else if 65 ≤ c.toNat ∧ c.toNat ≤ 70 then c.toNat - 55
  else 0

/-- The bytes a percent-encoded text stands for: each `%XY` is the byte with
hexadecimal digits `XY`, every other byte stands for itself. -/
def pctDecode : Str → Str
  | [] => []
  | c :: rest =>
    if c = '%' then
      match rest with
      | a :: b :: rest2 => Char.ofNat (16 * hexValue a + hexValue b) :: pctDecode rest2
      | _ => [c]
    else c :: pctDecode rest

/-- The target of the first line sent upstream: the path, or `/` for an empty
path, followed by `?` and the query when the query is not empty. -/
def requestTarget (req : Httpproxy.request) : Str :=
  (if req.path = [] then ['/'] else req.path) ++
    (if req.query = [] then [] else '?' :: req.query)

/-- The first line sent upstream: `METHOD PATH PROTOCOL\r\n`. -/
def requestFirstLine (req : Httpproxy.request) : Str :=
  req.method ++ [' '] ++ requestTarget req ++ [' '] ++ req.protocol ++ ['\r', '\n']

/-- The answer to a `CONNECT` request with protocol `P`:
`P 200 Connection established\r\n\r\n`. -/
def connectResponse (protocol : Str) : Str :=
  protocol ++ " 200 Connection established\r\n\r\n".toList

/-- The value of the first header named `Content-Length`, if there is one. -/
def contentLength : List Httpproxy.header → Option Str
  | [] => none
  | h :: hs => if h.name = "Content-Length".toList then some h.value else contentLength hs

end Spec

/-! ## Theorems: package `strings` -/

namespace Strings

theorem Index_eq_none_iff (sep s : Str) : Index s sep = none ↔ ¬ sep <:+: s := by
  induction s with
  | nil =>
    by_cases h : sep = [] <;> simp [Index, h]
  | cons c s ih =>
    simp only [Index, List.isPrefixOf_iff_prefix, List.infix_cons_iff]
    by_cases h : sep <+: c :: s
    · simp [h]
    · simp [h, ih]

theorem Index_of_prefix (sep s : Str) (h : sep <+: s) : Index s sep = some 0 := by
  cases s with
  | nil =>
    have : sep = [] := List.prefix_nil.1 h
    simp [Index, this]
  | cons x t => simp [Index, h]

theorem Index_append (sep a b : Str) (h : ¬ sep <:+: a ++ sep.dropLast) :
    Index (a ++ sep ++ b) sep = some a.length := by
  induction a with
  | nil =>
    exact Index_of_prefix sep _ (by simp)
  | cons x a ih =>
    have hne : sep ≠ [] := by
      rintro rfl
      exact h List.nil_infix
    have h1 : ¬ sep <+: x :: a ++ sep ++ b := by
      intro hp
      apply h
      have h2 : (x :: a ++ sep.dropLast) <+: x :: a ++ sep ++ b := by
        rw [List.append_assoc]
        apply (List.prefix_append_right_inj _).2
        exact (List.dropLast_prefix sep).trans (List.prefix_append _ _)
      have hlen : sep.length ≤ (x :: a ++ sep.dropLast).length := by
        have := List.length_pos.2 hne
        simp [List.length_dropLast]
        omega
      exact (List.prefix_of_prefix_length_le hp h2 hlen).isInfix
    have h3 : ¬ sep <:+: a ++ sep.dropLast := by
      intro hi
      apply h
      rw [List.cons_append]
      exact List.infix_cons hi
    have := ih h3
    simp only [List.cons_append, Index, List.isPrefixOf_iff_prefix, List.append_assoc] at h1 this ⊢
    simp [h1, this]

theorem Index_some_spec (sep : Str) (hne : sep ≠ []) : ∀ (s : Str) (m : Nat), Index s sep = some m →
    s = s.take m ++ sep ++ s.drop (m + sep.length) ∧ ¬ sep <:+: s.take m ++ sep.dropLast := by
  intro s
  induction s with
  | nil => intro m h; simp [Index, hne] at h
  | cons c s ih =>
    intro m h
    simp only [Index, List.isPrefixOf_iff_prefix] at h
    by_cases hp : sep <+: c :: s
    · simp only [hp, if_true, Option.some.injEq] at h
      subst h
      refine ⟨?_, ?_⟩
      · simpa using (List.prefix_iff_eq_append.1 hp).symm
      · simp only [List.take_zero, List.nil_append]
        intro hi
        have h1 := hi.length_le
        have := List.length_pos.2 hne
        simp [List.length_dropLast] at h1
        omega
    · simp only [hp, if_false, Option.map_eq_some'] at h
      obtain ⟨k, hk, rfl⟩ := h
      obtain ⟨e1, e2⟩ := ih k hk
      refine ⟨?_, ?_⟩
      · simp only [List.take_succ_cons, List.cons_append, List.cons.injEq, true_and]
        rw [show k + 1 + sep.length = (k + sep.length) + 1 by omega, List.drop_succ_cons]
        simpa using e1
      · simp only [List.take_succ_cons, List.cons_append]
        rw [List.infix_cons_iff]
        rintro (h1 | h1)
        · apply hp
          have h2 : (c :: (s.take k ++ sep.dropLast)) <+: c :: s := by
            rw [List.cons_prefix_cons]
            refine ⟨rfl, ?_⟩
            conv_rhs => rw [e1]
            rw [List.append_assoc]
            apply (List.prefix_append_right_inj _).2
            exact (List.dropLast_prefix sep).trans (List.prefix_append _ _)
          exact h1.trans h2
        · exact e2 h1

theorem Index_some_le (sep : Str) (hne : sep ≠ []) (s : Str) (m : Nat) (h : Index s sep = some m) :
    m + sep.length ≤ s.length := by
  have := (Index_some_spec sep hne s m h).1
  have h2 := congrArg List.length this
  have hpos := List.length_pos.2 hne
  simp only [List.length_append, List.length_take, List.length_drop] at h2
  omega

theorem genSplit_fuel (sep : Str) (hne : sep ≠ []) : ∀ (n : Nat) (s : Str), s.length ≤ n →
    genSplit sep n s = genSplit sep s.length s := by
  intro n
  induction n using Nat.strong_induction_on with
  | _ n ih =>
    intro s hs
    cases n with
    | zero =>
      have : s.length = 0 := by omega
      rw [this]
    | succ n =>
      cases hl : s.length with
      | zero =>
        have : s = [] := List.length_eq_zero.1 hl
        subst this
        simp [genSplit, Index, hne]
      | succ k =>
        simp only [genSplit]
        cases hi : Index s sep with
        | none => rfl
        | some m =>
          have hle := Index_some_le sep hne s m hi
          have hpos := List.length_pos.2 hne
          have hd : (s.drop (m + sep.length)).length ≤ k := by
            simp; omega
          simp only
          rw [ih n (by omega) _ (by omega), ih k (by omega) _ hd]

theorem Split_of_none (sep s : Str) (h : Index s sep = none) : Split s sep = [s] := by
  unfold Split
  cases s.length <;> simp [genSplit, h]

theorem Split_of_some (sep : Str) (hne : sep ≠ []) (s : Str) (m : Nat) (h : Index s sep = some m) :
    Split s sep = s.take m :: Split (s.drop (m + sep.length)) sep := by
  unfold Split
  have hle := Index_some_le sep hne s m h
  have hpos := List.length_pos.2 hne
  cases hl : s.length with
  | zero => omega
  | succ k =>
    simp only [genSplit, h]
    rw [genSplit_fuel sep hne k _ (by simp; omega)]

theorem Split_append (sep : Str) (hne : sep ≠ []) (a b : Str) (h : ¬ sep <:+: a ++ sep.dropLast) :
    Split (a ++ sep ++ b) sep = a :: Split b sep := by
  rw [Split_of_some sep hne _ _ (Index_append sep a b h)]
  simp

theorem singleton_infix_iff (c : Char) (s : Str) : [c] <:+: s ↔ c ∈ s := by
  constructor
  · intro h
    exact h.subset (List.mem_singleton_self c)
  · intro h
    obtain ⟨a, b, rfl⟩ := List.append_of_mem h
    exact ⟨a, b, by simp⟩

theorem Split_single_of_not_mem (c : Char) (s : Str) (h : c ∉ s) : Split s [c] = [s] :=
  Split_of_none [c] s ((Index_eq_none_iff [c] s).2 (by rwa [singleton_infix_iff]))

theorem Split_single_append (c : Char) (a b : Str) (h : c ∉ a) :
    Split (a ++ c :: b) [c] = a :: Split b [c] := by
  have := Split_append [c] (by simp) a b (by simpa [singleton_infix_iff] using h)
  simpa using this

theorem Split_single_length (c : Char) : ∀ (n : Nat) (s : Str), s.length ≤ n →
    (Split s [c]).length = s.count c + 1 := by
  intro n
  induction n with
  | zero =>
    intro s hs
    have : s = [] := List.length_eq_zero.1 (by omega)
    subst this
    simp [Split, genSplit]
  | succ n ih =>
    intro s hs
    by_cases hc : c ∈ s
    · obtain ⟨a, b, rfl, ha⟩ := List.eq_append_cons_of_mem hc
      rw [Split_single_append c a b ha]
      have hb : b.length ≤ n := by
        simp at hs; omega
      simp [ih b hb, List.count_eq_zero_of_not_mem ha]
    · rw [Split_single_of_not_mem c s hc, List.count_eq_zero_of_not_mem hc]
      rfl

theorem takeWhile_ne_append (c : Char) (a b : Str) (h : c ∉ a) :
    (a ++ c :: b).takeWhile (fun x => x != c) = a := by
  rw [List.takeWhile_append_of_pos]
  · simp
  · intro x hx
    simp only [bne_iff_ne, ne_eq]
    rintro rfl
    exact h hx

theorem dropWhile_ne_append (c : Char) (a b : Str) (h : c ∉ a) :
    (a ++ c :: b).dropWhile (fun x => x != c) = c :: b := by
  rw [List.dropWhile_append_of_pos]
  · simp
  · intro x hx
    simp only [bne_iff_ne, ne_eq]
    rintro rfl
    exact h hx

end Strings

/-! ## Theorems: package `strconv` -/

namespace Strconv

theorem digits_eq (ds : Str) : ∀ n : Nat, digits ds n =
    if Spec.allDigits ds then some (ds.foldl (fun n c => n * 10 + (c.toNat - 48)) n) else none := by
  induction ds with
  | nil => intro n; simp [digits, Spec.allDigits]
  | cons c ds ih =>
    intro n
    simp only [digits, Spec.allDigits, List.all_cons, List.foldl_cons] at ih ⊢
    by_cases h : 48 ≤ c.toNat ∧ c.toNat ≤ 57
    · simp [h, ih, Spec.allDigits]
    · have : (decide (48 ≤ c.toNat) && decide (c.toNat ≤ 57)) = false := by
        simpa using h
      simp [h, this]

theorem range_neg (N : Nat) : (if N ≤ 2 ^ 63 then some (-(N : Int)) else none) =
    (if Spec.fitsInt (-(N : Int)) then some (-(N : Int)) else none) := by
  unfold Spec.fitsInt
  by_cases h : N ≤ 2 ^ 63
  · have h2 : -(2 : Int) ^ 63 ≤ -(N : Int) ∧ -(N : Int) < (2 : Int) ^ 63 := by
      constructor <;> omega
    rw [if_pos h, if_pos h2]
  · have h2 : ¬ (-(2 : Int) ^ 63 ≤ -(N : Int) ∧ -(N : Int) < (2 : Int) ^ 63) := by
      intro h3
      have := h3.1
      omega
    rw [if_neg h, if_neg h2]

theorem range_pos (N : Nat) : (if N < 2 ^ 63 then some (N : Int) else none) =
    (if Spec.fitsInt (N : Int) then some (N : Int) else none) := by
  unfold Spec.fitsInt
  by_cases h : N < 2 ^ 63
  · have h2 : -(2 : Int) ^ 63 ≤ (N : Int) ∧ (N : Int) < (2 : Int) ^ 63 := by
      constructor <;> omega
    rw [if_pos h, if_pos h2]
  · have h2 : ¬ (-(2 : Int) ^ 63 ≤ (N : Int) ∧ (N : Int) < (2 : Int) ^ 63) := by
      intro h3
      have := h3.2
      omega
    rw [if_neg h, if_neg h2]

theorem Atoi_eq (t : Str) : Atoi t =
    (Spec.base10Int t).bind (fun v => if Spec.fitsInt v then some v else none) := by
  cases t with
  | nil => simp [Atoi, Spec.base10Int]
  | cons c t =>
    by_cases hm : c = '-'
    · subst hm
      by_cases ht : t = []
      · simp [Atoi, Spec.base10Int, ht]
      · by_cases hd : Spec.allDigits t
        · have e1 : Atoi ('-' :: t) =
              if Spec.decimalValue t ≤ 2 ^ 63 then some (-(Spec.decimalValue t : Int)) else none := by
            simp [Atoi, digits_eq, hd, ht, Spec.decimalValue]
          have e2 : Spec.base10Int ('-' :: t) = some (-(Spec.decimalValue t : Int)) := by
            simp [Spec.base10Int, hd, ht]
          rw [e1, e2, Option.some_bind, range_neg]
        · simp [Atoi, Spec.base10Int, digits_eq, hd, ht]
    · by_cases hp : c = '+'
      · subst hp
        by_cases ht : t = []
        · simp [Atoi, Spec.base10Int, ht]
        · by_cases hd : Spec.allDigits t
          · have e1 : Atoi ('+' :: t) =
                if Spec.decimalValue t < 2 ^ 63 then some (Spec.decimalValue t : Int) else none := by
              simp [Atoi, digits_eq, hd, ht, Spec.decimalValue]
            have e2 : Spec.base10Int ('+' :: t) = some (Spec.decimalValue t : Int) := by
              simp [Spec.base10Int, hd, ht]
            rw [e1, e2, Option.some_bind, range_pos]
          · simp [Atoi, Spec.base10Int, digits_eq, hd, ht]
      · by_cases hd : Spec.allDigits (c :: t)
        · have e1 : Atoi (c :: t) =
              if Spec.decimalValue (c :: t) < 2 ^ 63 then some (Spec.decimalValue (c :: t) : Int)
              else none := by
            simp [Atoi, digits_eq, hd, hm, hp, Spec.decimalValue]
          have e2 : Spec.base10Int (c :: t) = some (Spec.decimalValue (c :: t) : Int) := by
            simp [Spec.base10Int, hd, hm, hp]
          rw [e1, e2, Option.some_bind, range_pos]
        · simp [Atoi, Spec.base10Int, digits_eq, hd, hm, hp]

end Strconv

/-! ## Theorems: authority parsing (`parseHost`) -/

namespace Httpproxy

theorem Split_count_zero (c : Char) (a : Str) (h : a.count c = 0) : Strings.Split a [c] = [a] :=
  Strings.Split_single_of_not_mem c a (List.count_eq_zero.1 h)

theorem Split_count_one (c : Char) (a : Str) (h : a.count c = 1) :
    Strings.Split a [c] =
      [a.takeWhile (fun x => x != c), (a.dropWhile (fun x => x != c)).drop 1] := by
  have hc : c ∈ a := by
    rw [← List.count_pos_iff]; omega
  obtain ⟨x, y, rfl, hx⟩ := List.eq_append_cons_of_mem hc
  have hy : c ∉ y := by
    rw [← List.count_eq_zero]
    simp [List.count_eq_zero_of_not_mem hx] at h
    exact h
  rw [Strings.Split_single_append c x y hx, Strings.Split_single_of_not_mem c y hy,
    Strings.takeWhile_ne_append c x y hx, Strings.dropWhile_ne_append c x y hx]
  rfl

theorem parseHost_of_split_long (a : Str) (h : 3 ≤ (Strings.Split a [':']).length) :
    parseHost a = none := by
  unfold parseHost
  match hs : Strings.Split a [':'] with
  | [] => rfl
  | [_] => rw [hs] at h; simp at h
  | [_, _] => rw [hs] at h; simp at h
  | _ :: _ :: _ :: _ => rfl

/-- C4 (amended): `parseHost` behaves by the number of colons of the authority.
Without a colon it succeeds with the whole authority as host and port 80.
With exactly one colon it succeeds exactly when the text after the colon is a
base-10 integer that fits the 64-bit `int`, with the text before the colon as
host and that integer as port; it fails when the text is not a base-10 integer
or denotes an integer outside that range.  With more than one colon it
fails. -/
theorem parseHost_by_colon_count (a : Str) :
    parseHost a =
      if a.count ':' = 0 then some (a, 80)
      else if a.count ':' = 1 then
        (Spec.base10Int (Spec.afterColon a)).bind
          (fun v => if Spec.fitsInt v then some (Spec.beforeColon a, v) else none)
      else none := by
  by_cases h0 : a.count ':' = 0
  · rw [if_pos h0]
    simp [parseHost, Split_count_zero ':' a h0]
  · rw [if_neg h0]
    by_cases h1 : a.count ':' = 1
    · rw [if_pos h1]
      simp only [parseHost, Split_count_one ':' a h1, Strconv.Atoi_eq, Spec.afterColon,
        Spec.beforeColon]
      cases Spec.base10Int (List.drop 1 (List.dropWhile (fun x => x != ':') a)) with
      | none => rfl
      | some v =>
        simp only [Option.some_bind]
        split_ifs <;> rfl
    · rw [if_neg h1]
      apply parseHost_of_split_long
      rw [Strings.Split_single_length ':' a.length a (le_refl _)]
      omega

/-- C4 (counterexample): the authority `h:9223372036854775808` has exactly one
colon and the text after it is the base-10 integer 2^63, yet `parseHost`
fails. -/
theorem parseHost_fails_on_base10_integer :
    List.count ':' "h:9223372036854775808".toList = 1 ∧
    Spec.afterColon "h:9223372036854775808".toList = "9223372036854775808".toList ∧
    Spec.base10Int "9223372036854775808".toList = some 9223372036854775808 ∧
    parseHost "h:9223372036854775808".toList = none := by
  decide

end Httpproxy

/-! ## Theorems: request lines, `CONNECT` -/

namespace Httpproxy

theorem base10Int_chars (p : Str) (v : Int) (h : Spec.base10Int p = some v) :
    ∀ c ∈ p, c = '-' ∨ c = '+' ∨ (48 ≤ c.toNat ∧ c.toNat ≤ 57) := by
  unfold Spec.base10Int at h
  simp only at h
  by_cases hs : p.head? = some '-' ∨ p.head? = some '+'
  · rw [if_pos hs] at h
    by_cases h2 : p.tail ≠ [] ∧ Spec.allDigits p.tail = true
    · intro c hc
      cases p with
      | nil => simp at hc
      | cons x t =>
        simp only [List.head?_cons, Option.some.injEq, List.tail_cons] at hs h2
        simp only [List.mem_cons] at hc
        rcases hc with rfl | hc
        · rcases hs with h1 | h1
          · left; exact h1
          · right; left; exact h1
        · right; right
          have := h2.2
          simp only [Spec.allDigits, List.all_eq_true, Bool.and_eq_true, decide_eq_true_eq] at this
          exact this c hc
    · rw [if_neg h2] at h
      cases h
  · rw [if_neg hs] at h
    by_cases h2 : p ≠ [] ∧ Spec.allDigits p = true
    · intro c hc
      right; right
      have := h2.2
      simp only [Spec.allDigits, List.all_eq_true, Bool.and_eq_true, decide_eq_true_eq] at this
      exact this c hc
    · rw [if_neg h2] at h
      cases h

theorem base10Int_not_mem (p : Str) (v : Int) (h : Spec.base10Int p = some v) (c : Char)
    (h1 : c ≠ '-') (h2 : c ≠ '+') (h3 : ¬ (48 ≤ c.toNat ∧ c.toNat ≤ 57)) : c ∉ p := by
  intro hc
  rcases base10Int_chars p v h c hc with h | h | h
  · exact h1 h
  · exact h2 h
  · exact h3 h

theorem parseHost_one_colon (h t : Str) (hh : ':' ∉ h) (ht : ':' ∉ t) :
    parseHost (h ++ ':' :: t) =
      (Spec.base10Int t).bind (fun v => if Spec.fitsInt v then some (h, v) else none) := by
  simp only [parseHost, Strings.Split_single_append ':' h t hh,
    Strings.Split_single_of_not_mem ':' t ht, Strconv.Atoi_eq]
  cases Spec.base10Int t with
  | none => rfl
  | some v =>
    simp only [Option.some_bind]
    split_ifs <;> rfl

theorem Split_three (m u p : Str) (hm : ' ' ∉ m) (hu : ' ' ∉ u) (hp : ' ' ∉ p) :
    Strings.Split (m ++ ' ' :: (u ++ ' ' :: p)) [' '] = [m, u, p] := by
  rw [Strings.Split_single_append ' ' m _ hm, Strings.Split_single_append ' ' u _ hu,
    Strings.Split_single_of_not_mem ' ' p hp]

/-- C3 (amended): for every request line `CONNECT h:p P` where `h` holds no
colon and no space, `P` holds no space and `p` is a base-10 integer of value
`v`: when `v` fits the 64-bit `int`, `parseRequestLine` succeeds with method
`CONNECT`, host `h`, port `v`, protocol `P` and empty scheme, path and query;
when `v` does not fit, `parseRequestLine` fails. -/
theorem parseRequestLine_connect (h p P : Str) (v : Int) (hh : ':' ∉ h ∧ ' ' ∉ h)
    (hP : ' ' ∉ P) (hp : Spec.base10Int p = some v) :
    parseRequestLine ("CONNECT".toList ++ ' ' :: ((h ++ ':' :: p) ++ ' ' :: P)) =
      if Spec.fitsInt v then
        some { method := "CONNECT".toList, scheme := [], host := h, port := v, path := [],
               query := [], protocol := P }
      else none := by
  have hps : ' ' ∉ p := base10Int_not_mem p v hp ' ' (by decide) (by decide) (by decide)
  have hpc : ':' ∉ p := base10Int_not_mem p v hp ':' (by decide) (by decide) (by decide)
  have hu : ' ' ∉ h ++ ':' :: p := by
    simp only [List.mem_append, List.mem_cons, not_or]
    exact ⟨hh.2, by decide, hps⟩
  unfold parseRequestLine
  rw [Split_three _ _ _ (by decide) hu hP]
  simp only [if_true, parseHost_one_colon h p hh.1 hpc, hp, Option.some_bind]
  split_ifs <;> rfl

/-- C3 (witness): the line `CONNECT www.google.com:443 HTTP/1.0` of the
package's test. -/
theorem parseRequestLine_connect_witness :
    parseRequestLine "CONNECT www.google.com:443 HTTP/1.0".toList =
      some { method := "CONNECT".toList, scheme := [], host := "www.google.com".toList,
             port := 443, path := [], query := [], protocol := "HTTP/1.0".toList } := by
  have := parseRequestLine_connect "www.google.com".toList "443".toList "HTTP/1.0".toList 443
    (by decide) (by decide) (by decide)
  simpa using this

/-- C3 (counterexample): in `CONNECT h:9223372036854775808 HTTP/1.1` the port
text is the base-10 integer 2^63, `h` holds no colon and no space, yet
`parseRequestLine` fails. -/
theorem parseRequestLine_connect_fails_on_base10_integer :
    Spec.base10Int "9223372036854775808".toList = some 9223372036854775808 ∧
    parseRequestLine "CONNECT h:9223372036854775808 HTTP/1.1".toList = none := by
  decide

end Httpproxy

/-! ## Theorems: header lines (`parseHeader`) -/

namespace Strings

theorem genSplit_ne_nil (sep : Str) (n : Nat) (s : Str) : genSplit sep n s ≠ [] := by
  cases n with
  | zero => simp [genSplit]
  | succ n =>
    simp only [genSplit]
    cases Index s sep <;> simp

theorem Split_ne_nil (s sep : Str) : Split s sep ≠ [] := genSplit_ne_nil sep _ s

theorem Split_eq_singleton (sep : Str) (hne : sep ≠ []) (s v : Str) :
    Split s sep = [v] ↔ Index s sep = none ∧ v = s := by
  constructor
  · intro h
    cases hi : Index s sep with
    | none =>
      rw [Split_of_none sep s hi] at h
      simp at h
      exact ⟨rfl, h.symm⟩
    | some m =>
      rw [Split_of_some sep hne s m hi] at h
      simp only [List.cons.injEq] at h
      exact absurd h.2 (Split_ne_nil _ _)
  · rintro ⟨h, rfl⟩
    exact Split_of_none sep v h

theorem Split_eq_pair (sep : Str) (hne : sep ≠ []) (s n v : Str) :
    Split s sep = [n, v] ↔
      s = n ++ sep ++ v ∧ ¬ sep <:+: n ++ sep.dropLast ∧ ¬ sep <:+: v := by
  constructor
  · intro h
    cases hi : Index s sep with
    | none =>
      rw [Split_of_none sep s hi] at h
      simp at h
    | some m =>
      rw [Split_of_some sep hne s m hi] at h
      simp only [List.cons.injEq] at h
      obtain ⟨h1, h2⟩ := h
      obtain ⟨h3, h4⟩ := (Split_eq_singleton sep hne _ _).1 h2
      obtain ⟨e1, e2⟩ := Index_some_spec sep hne s m hi
      rw [h1] at e1 e2
      rw [← h4] at e1
      exact ⟨e1, e2, by rw [h4]; exact (Index_eq_none_iff _ _).1 h3⟩
  · rintro ⟨rfl, h1, h2⟩
    rw [Split_append sep hne n v h1, Split_of_none sep v ((Index_eq_none_iff _ _).2 h2)]

theorem colonSpace_infix_append (n : Str) :
    [':', ' '] <:+: n ++ [':'] ↔ [':', ' '] <:+: n := by
  constructor
  · rintro ⟨a, b, hab⟩
    rcases List.eq_nil_or_concat b with rfl | ⟨b', x, rfl⟩
    · have := congrArg List.getLast? hab
      simp at this
    · have h2 : a ++ [':', ' '] ++ b' ++ [x] = n ++ [':'] := by
        rw [← hab]; simp
      have h3 := List.append_inj' h2 rfl
      exact ⟨a, b', h3.1⟩
  · intro h
    exact h.trans (List.infix_append' [] n [':'])

end Strings

namespace Httpproxy

/-- C8 (amended): `parseHeader` succeeds exactly when the line holds exactly
one occurrence of `": "`: the line is `name ++ ": " ++ value` where neither the
name nor the value holds a `": "`, and the header returned has that name and
that value.  It fails on every other line: a line without `": "` and a line
with more than one `": "`. -/
theorem parseHeader_iff (line : Str) (h : header) :
    parseHeader line = some h ↔
      line = h.name ++ [':', ' '] ++ h.value ∧ ¬ [':', ' '] <:+: h.name ∧
        ¬ [':', ' '] <:+: h.value := by
  have key := Strings.Split_eq_pair [':', ' '] (by simp) line h.name h.value
  simp only [List.dropLast_cons₂, List.dropLast_single, Strings.colonSpace_infix_append] at key
  rw [← key]
  unfold parseHeader
  constructor
  · intro hp
    match hs : Strings.Split line [':', ' '] with
    | [] => rw [hs] at hp; simp at hp
    | [_] => rw [hs] at hp; simp at hp
    | [n, v] =>
      rw [hs] at hp
      simp only [Option.some.injEq] at hp
      rw [← hp]
    | _ :: _ :: _ :: _ => rw [hs] at hp; simp at hp
  · intro hs
    rw [hs]

/-- C8 (counterexample): the line `X: a: b` is not empty and holds `": "`, yet
`parseHeader` fails on it instead of returning name `X` and value `a: b`. -/
theorem parseHeader_fails_on_second_separator :
    "X: a: b".toList ≠ [] ∧ [':', ' '] <:+: "X: a: b".toList ∧
    parseHeader "X: a: b".toList = none := by
  refine ⟨by decide, ⟨['X'], "a: b".toList, by decide⟩, by decide⟩

end Httpproxy

/-! ## Theorems: lines (`readLine`) -/

namespace Bufio

theorem ReadString_of_not_mem (r : Reader) (c : Char) (h : c ∉ r.data) :
    r.ReadString c = ((r.data, true), { r with data := [] }) := by
  have : Strings.Index r.data [c] = none :=
    (Strings.Index_eq_none_iff [c] r.data).2 (by rwa [Strings.singleton_infix_iff])
  simp [Reader.ReadString, this]

theorem ReadString_of_mem (r : Reader) (c : Char) (body rest : Str)
    (hd : r.data = body ++ c :: rest) (h : c ∉ body) :
    r.ReadString c = ((body ++ [c], false), { r with data := rest }) := by
  have hi : Strings.Index r.data [c] = some body.length := by
    have := Strings.Index_append [c] body rest (by simpa [Strings.singleton_infix_iff] using h)
    rw [hd]
    simpa using this
  have e1 : List.take (body.length + 1) (body ++ c :: rest) = body ++ [c] := by
    rw [List.take_append_eq_append_take]
    simp
  have e2 : List.drop (body.length + 1) (body ++ c :: rest) = rest := by
    rw [List.drop_append_eq_append_drop]
    simp
  simp only [Reader.ReadString, hi]
  rw [hd, e1, e2]

end Bufio

namespace Strings

theorem first_sep_unique (c : Char) (a1 b1 a2 b2 : Str) (h1 : c ∉ a1) (h2 : c ∉ a2)
    (e : a1 ++ c :: b1 = a2 ++ c :: b2) : a1 = a2 ∧ b1 = b2 := by
  rcases List.append_eq_append_iff.1 e with ⟨a', h6, h7⟩ | ⟨c', h6, h7⟩
  · cases a' with
    | nil =>
      simp only [List.append_nil] at h6
      simp only [List.nil_append, List.cons.injEq, true_and] at h7
      exact ⟨h6.symm, h7⟩
    | cons x t =>
      simp only [List.cons_append, List.cons.injEq] at h7
      exfalso; apply h2; rw [h6]
      simp only [List.mem_append, List.mem_cons]
      right; left; exact h7.1
  · cases c' with
    | nil =>
      simp only [List.append_nil] at h6
      simp only [List.nil_append, List.cons.injEq, true_and] at h7
      exact ⟨h6, h7.symm⟩
    | cons x t =>
      simp only [List.cons_append, List.cons.injEq] at h7
      exfalso; apply h1; rw [h6]
      simp only [List.mem_append, List.mem_cons]
      right; left; exact h7.1

end Strings

namespace Httpproxy

theorem readLine_of_not_mem (r : Bufio.Reader) (h : '\n' ∉ r.data) :
    readLine r = (none, { r with data := [] }) := by
  simp [readLine, Bufio.ReadString_of_not_mem r '\n' h]

theorem readLine_of_crlf (r : Bufio.Reader) (line rest : Str)
    (hd : r.data = line ++ ['\r', '\n'] ++ rest) (h : '\n' ∉ line) :
    readLine r = (some line, { r with data := rest }) := by
  have hb : '\n' ∉ line ++ ['\r'] := by
    simp only [List.mem_append, List.mem_singleton, not_or]
    exact ⟨h, by decide⟩
  have hd2 : r.data = (line ++ ['\r']) ++ '\n' :: rest := by
    rw [hd]; simp
  have hs : Strings.HasSuffix (line ++ ['\r'] ++ ['\n']) newLineFlag = true := by
    simp [Strings.HasSuffix, newLineFlag]
  have ht : List.take ((line ++ ['\r'] ++ ['\n']).length - 2) (line ++ ['\r'] ++ ['\n']) = line := by
    simp [List.take_append_eq_append_take]
  have hl : ¬ (line ++ ['\r'] ++ ['\n']).length < 2 := by
    simp
  simp only [readLine, Bufio.ReadString_of_mem r '\n' _ rest hd2 hb, hl, hs, ht]
  simp

theorem readLine_of_no_cr (r : Bufio.Reader) (body rest : Str)
    (hd : r.data = body ++ '\n' :: rest) (h : '\n' ∉ body) (hcr : body.getLast? ≠ some '\r') :
    readLine r = (none, { r with data := rest }) := by
  have hs : Strings.HasSuffix (body ++ ['\n']) newLineFlag = false := by
    rcases List.eq_nil_or_concat body with rfl | ⟨b', x, rfl⟩
    · decide
    · simp only [List.concat_eq_append] at hcr ⊢
      have hx : x ≠ '\r' := by
        intro hx
        apply hcr
        simp [hx]
      simp only [Strings.HasSuffix, newLineFlag, Bool.eq_false_iff, ne_eq,
        List.isSuffixOf_iff_suffix]
      intro hsuf
      have : ['\r', '\n'] <:+ b' ++ ['\r', '\n'] := List.suffix_append _ _
      have h3 : b' ++ [x] ++ ['\n'] = b' ++ [x, '\n'] := by simp
      rw [h3] at hsuf
      obtain ⟨t, ht⟩ := hsuf
      have h4 := List.append_inj' ht rfl
      simp at h4
      exact hx h4.2.symm
  simp only [readLine, Bufio.ReadString_of_mem r '\n' body rest hd h, hs]
  split_ifs <;> simp

/-- C7: for every input stream, `readLine` succeeds exactly when the bytes up
to and including the first `'\n'` exist and end in `"\r\n"`; it then returns
those bytes without the last two and leaves exactly what follows them unread.
It fails exactly when the stream holds no `'\n'`, or when what precedes the
first `'\n'` does not end in `'\r'` (which includes the line of one byte). -/
theorem readLine_spec (r : Bufio.Reader) :
    (∀ line r1, readLine r = (some line, r1) ↔
      ∃ rest, r.data = line ++ ['\r', '\n'] ++ rest ∧ '\n' ∉ line ∧
        r1 = { r with data := rest }) ∧
    ((readLine r).1 = none ↔
      ('\n' ∉ r.data ∨
        ∃ body rest, r.data = body ++ '\n' :: rest ∧ '\n' ∉ body ∧
          body.getLast? ≠ some '\r')) := by
  by_cases hm : '\n' ∈ r.data
  · obtain ⟨body, rest, hd, hb⟩ := List.eq_append_cons_of_mem hm
    by_cases hcr : body.getLast? = some '\r'
    · obtain ⟨line, rfl⟩ : ∃ line, body = line ++ ['\r'] := by
        rcases List.eq_nil_or_concat body with rfl | ⟨b', x, rfl⟩
        · simp at hcr
        · simp at hcr
          exact ⟨b', by rw [hcr, List.concat_eq_append]⟩
      have hl : '\n' ∉ line := fun h => hb (List.mem_append_left _ h)
      have hd2 : r.data = line ++ ['\r', '\n'] ++ rest := by rw [hd]; simp
      have hr := readLine_of_crlf r line rest hd2 hl
      refine ⟨?_, ?_⟩
      · intro line2 r1
        constructor
        · intro h2
          rw [hr] at h2
          simp only [Prod.mk.injEq, Option.some.injEq] at h2
          exact ⟨rest, by rw [← h2.1]; exact hd2, by rw [← h2.1]; exact hl, h2.2.symm⟩
        · rintro ⟨rest2, h3, h4, rfl⟩
          exact readLine_of_crlf r line2 rest2 h3 h4
      · rw [hr]
        simp only [reduceCtorEq, false_iff, not_or, not_not, not_exists, not_and]
        refine ⟨hm, ?_⟩
        intro body2 rest2 h3 h4
        have h5 : body2 = line ++ ['\r'] := by
          have e : (line ++ ['\r']) ++ '\n' :: rest = body2 ++ '\n' :: rest2 := by
            rw [← hd, h3]
          exact (Strings.first_sep_unique '\n' _ _ _ _ hb h4 e).1.symm
        rw [h5]; simp
    · have hr := readLine_of_no_cr r body rest hd hb hcr
      refine ⟨?_, ?_⟩
      · intro line2 r1
        rw [hr]
        simp only [Prod.mk.injEq, reduceCtorEq, false_and, false_iff, not_exists, not_and]
        intro rest2 h3 h4
        exfalso
        have hl2 : '\n' ∉ line2 ++ ['\r'] := by
          simp only [List.mem_append, List.mem_singleton, not_or]
          exact ⟨h4, by decide⟩
        have e : body ++ '\n' :: rest = (line2 ++ ['\r']) ++ '\n' :: rest2 := by
          rw [← hd, h3]; simp
        have h5 : body = line2 ++ ['\r'] :=
          (Strings.first_sep_unique '\n' _ _ _ _ hb hl2 e).1
        apply hcr
        rw [h5]; simp
      · rw [hr]
        simp only [true_iff]
        right
        exact ⟨body, rest, hd, hb, hcr⟩
  · rw [readLine_of_not_mem r hm]
    refine ⟨?_, ?_⟩
    · intro line2 r1
      simp only [Prod.mk.injEq, reduceCtorEq, false_and, false_iff, not_exists, not_and]
      intro rest2 h3
      exfalso
      apply hm
      rw [h3]; simp
    · simp [hm]

end Httpproxy

/-! ## Theorems: what a parsed request holds -/

namespace Httpproxy

theorem Atoi_fits (t : Str) (v : Int) (h : Strconv.Atoi t = some v) : Spec.fitsInt v := by
  rw [Strconv.Atoi_eq] at h
  cases hb : Spec.base10Int t with
  | none => rw [hb] at h; simp at h
  | some w =>
    rw [hb] at h
    simp only [Option.some_bind] at h
    split_ifs at h with hf
    simp only [Option.some.injEq] at h
    rw [← h]; exact hf

theorem parseHost_some (x h : Str) (p : Int) (hx : parseHost x = some (h, p)) :
    ':' ∉ h ∧ Spec.fitsInt p := by
  unfold parseHost at hx
  match hs : Strings.Split x [':'] with
  | [] => rw [hs] at hx; simp at hx
  | [a] =>
    rw [hs] at hx
    simp only [Option.some.injEq, Prod.mk.injEq] at hx
    have hl := Strings.Split_single_length ':' x.length x (le_refl _)
    rw [hs] at hl
    simp only [List.length_singleton] at hl
    have hc : x.count ':' = 0 := by omega
    have := Split_count_zero ':' x hc
    rw [hs] at this
    simp only [List.cons.injEq, and_true] at this
    refine ⟨?_, ?_⟩
    · rw [← hx.1, this]; exact List.count_eq_zero.1 hc
    · rw [← hx.2]; unfold Spec.fitsInt; constructor <;> norm_num
  | [a, t] =>
    rw [hs] at hx
    simp only at hx
    have hl := Strings.Split_single_length ':' x.length x (le_refl _)
    rw [hs] at hl
    simp only [List.length_cons, List.length_nil] at hl
    have hc : x.count ':' = 1 := by omega
    have := Split_count_one ':' x hc
    rw [hs] at this
    simp only [List.cons.injEq, and_true] at this
    cases ha : Strconv.Atoi t with
    | none => rw [ha] at hx; simp at hx
    | some v =>
      rw [ha] at hx
      simp only [Option.some.injEq, Prod.mk.injEq] at hx
      refine ⟨?_, ?_⟩
      · rw [← hx.1, this.1]
        intro hm
        have := List.mem_takeWhile_imp hm
        simp at this
      · rw [← hx.2]; exact Atoi_fits t v ha
  | _ :: _ :: _ :: _ => rw [hs] at hx; simp at hx

/-- C5 (amended): every request that `parseRequestLine` returns, for any input
line (`CONNECT` or not), has a host that holds no colon and a port that fits
the 64-bit `int`.  (The host may be empty and the port may lie outside
1..65535.) -/
theorem parseRequestLine_host_port (line : Str) (r : request)
    (h : parseRequestLine line = some r) : ':' ∉ r.host ∧ Spec.fitsInt r.port := by
  unfold parseRequestLine at h
  match hs : Strings.Split line [' '] with
  | [] => rw [hs] at h; simp at h
  | [_] => rw [hs] at h; simp at h
  | [_, _] => rw [hs] at h; simp at h
  | s0 :: s1 :: s2 :: _ =>
    rw [hs] at h
    simp only at h
    split_ifs at h with hc
    · cases hp : parseHost s1 with
      | none => rw [hp] at h; simp at h
      | some hp2 =>
        obtain ⟨host, port⟩ := hp2
        rw [hp] at h
        simp only [Option.some.injEq] at h
        rw [← h]
        exact parseHost_some s1 host port hp
    · cases hu : Url.Parse s1 with
      | none => rw [hu] at h; simp at h
      | some rawUrl =>
        rw [hu] at h
        simp only at h
        cases hp : parseHost rawUrl.Host with
        | none => rw [hp] at h; simp at h
        | some hp2 =>
          obtain ⟨host, port⟩ := hp2
          rw [hp] at h
          simp only [Option.some.injEq] at h
          rw [← h]
          exact parseHost_some _ host port hp

/-- C5 (witness): the request of `CONNECT www.google.com:443 HTTP/1.0`. -/
theorem parseRequestLine_host_port_witness :
    ':' ∉ (request.mk "CONNECT".toList [] "www.google.com".toList 443 [] []
      "HTTP/1.0".toList).host ∧ Spec.fitsInt 443 :=
  parseRequestLine_host_port "CONNECT www.google.com:443 HTTP/1.0".toList
    { method := "CONNECT".toList, scheme := [], host := "www.google.com".toList,
      port := 443, path := [], query := [], protocol := "HTTP/1.0".toList } (by decide)

/-- C5 (counterexample): `parseRequestLine` succeeds on `CONNECT :0 HTTP/1.1`
with an empty host and port 0, on `CONNECT h:70000 HTTP/1.1` with port 70000,
and on the non-`CONNECT` line `GET /index.html HTTP/1.1` with an empty host. -/
theorem parseRequestLine_empty_host_and_port_out_of_range :
    parseRequestLine "CONNECT :0 HTTP/1.1".toList =
      some { method := "CONNECT".toList, scheme := [], host := [], port := 0, path := [],
             query := [], protocol := "HTTP/1.1".toList } ∧
    parseRequestLine "CONNECT h:70000 HTTP/1.1".toList =
      some { method := "CONNECT".toList, scheme := [], host := ['h'], port := 70000, path := [],
             query := [], protocol := "HTTP/1.1".toList } ∧
    parseRequestLine "GET /index.html HTTP/1.1".toList =
      some { method := "GET".toList, scheme := [], host := [], port := 80,
             path := "/index.html".toList, query := [], protocol := "HTTP/1.1".toList } := by
  decide

end Httpproxy

/-! ## Theorems: header blocks (`readHeaders`, `writeHeaders`) -/

namespace Httpproxy

theorem parseHeader_of_wellFormed (h : header) (hw : Spec.wellFormedHeader h) :
    parseHeader (h.name ++ [':', ' '] ++ h.value) = some h := by
  have key := (Strings.Split_eq_pair [':', ' '] (by simp) (h.name ++ [':', ' '] ++ h.value)
    h.name h.value).2
    ⟨rfl, by
      simp only [List.dropLast_cons₂, List.dropLast_single, Strings.colonSpace_infix_append]
      exact hw.1, hw.2.1⟩
  unfold parseHeader
  rw [key]

theorem not_mem_header_text (h : header) (hw : Spec.wellFormedHeader h) :
    '\n' ∉ h.name ++ [':', ' '] ++ h.value := by
  simp only [List.mem_append, List.mem_cons, List.mem_singleton, not_or]
  exact ⟨⟨hw.2.2.1, by decide, by decide, by simp⟩, hw.2.2.2⟩

theorem headerLines_length (hs : List header) : hs.length ≤ (Spec.headerLines hs).length := by
  induction hs with
  | nil => simp [Spec.headerLines]
  | cons h hs ih =>
    simp only [Spec.headerLines, Spec.headerLine, List.length_append, List.length_cons,
      List.length_nil]
    omega

theorem withoutConnection_cons_pos (h : header) (hs : List header)
    (hc : h.name = "Connection".toList) :
    Spec.withoutConnection (h :: hs) = Spec.withoutConnection hs := by
  unfold Spec.withoutConnection
  rw [List.filter_cons_of_neg]
  rw [decide_eq_true_eq]
  exact not_not.2 hc

theorem withoutConnection_cons_neg (h : header) (hs : List header)
    (hc : h.name ≠ "Connection".toList) :
    Spec.withoutConnection (h :: hs) = h :: Spec.withoutConnection hs := by
  unfold Spec.withoutConnection
  rw [List.filter_cons_of_pos]
  rw [decide_eq_true_eq]
  exact hc

theorem readHeadersLoop_block (rest : Str) : ∀ (hs : List header),
    (∀ h ∈ hs, Spec.wellFormedHeader h) → ∀ (n : Nat) (r : Bufio.Reader) (acc : List header),
    hs.length < n → r.data = Spec.headerBlock hs ++ rest →
    readHeadersLoop n r acc = (some (acc ++ Spec.withoutConnection hs), { r with data := rest }) := by
  intro hs
  induction hs with
  | nil =>
    intro _ n r acc hn hd
    cases n with
    | zero => omega
    | succ k =>
      have hr := readLine_of_crlf r [] rest (by simpa [Spec.headerBlock, Spec.headerLines] using hd)
        (by simp)
      simp [readHeadersLoop, hr, Spec.withoutConnection]
  | cons h hs ih =>
    intro hwf n r acc hn hd
    cases n with
    | zero => omega
    | succ k =>
      have hw := hwf h (List.mem_cons_self _ _)
      have hd2 : r.data = (h.name ++ [':', ' '] ++ h.value) ++ ['\r', '\n'] ++
          (Spec.headerBlock hs ++ rest) := by
        rw [hd]
        simp [Spec.headerBlock, Spec.headerLines, Spec.headerLine]
      have hr := readLine_of_crlf r _ _ hd2 (not_mem_header_text h hw)
      have hlen : (h.name ++ [':', ' '] ++ h.value).length ≠ 0 := by simp
      have hk : hs.length < k := by simp at hn; omega
      have hwf2 : ∀ x ∈ hs, Spec.wellFormedHeader x := fun x hx => hwf x (List.mem_cons_of_mem _ hx)
      simp only [readHeadersLoop, hr, hlen, if_false, parseHeader_of_wellFormed h hw]
      by_cases hc : h.name = "Connection".toList
      · rw [if_pos hc, ih hwf2 k _ acc hk rfl, withoutConnection_cons_pos h hs hc]
      · rw [if_neg hc, ih hwf2 k _ (acc ++ [h]) hk rfl, withoutConnection_cons_neg h hs hc]
        simp

theorem readHeaders_block (hs : List header) (rest : Str) (r : Bufio.Reader)
    (hwf : ∀ h ∈ hs, Spec.wellFormedHeader h) (hd : r.data = Spec.headerBlock hs ++ rest) :
    readHeaders r = (some (Spec.withoutConnection hs), { r with data := rest }) := by
  unfold readHeaders
  have hn : hs.length < r.data.length + 1 := by
    have := headerLines_length hs
    rw [hd]
    simp only [Spec.headerBlock, List.length_append]
    omega
  have := readHeadersLoop_block rest hs hwf _ r [] hn hd
  simpa using this

/-- C9 (amended): for every sequence of headers whose names and values hold
neither the separator `": "` nor a line feed, written as `Name: Value\r\n`
lines and followed by the blank line `\r\n` and by any further input,
`readHeaders` succeeds and returns exactly the headers whose name is not
`Connection`, in input order, every duplicate kept, and leaves exactly the
input after the blank line unread. -/
theorem readHeaders_returns_headers (hs : List header) (rest : Str) (r : Bufio.Reader)
    (hwf : ∀ h ∈ hs, Spec.wellFormedHeader h) (hd : r.data = Spec.headerBlock hs ++ rest) :
    readHeaders r =
      (some (hs.filter (fun h => decide (h.name ≠ "Connection".toList))),
        { r with data := rest }) := by
  have hn : hs.length < r.data.length + 1 := by
    have := headerLines_length hs
    rw [hd]
    simp only [Spec.headerBlock, List.length_append]
    omega
  have := readHeadersLoop_block rest hs hwf (r.data.length + 1) r [] hn hd
  simpa [readHeaders, Spec.withoutConnection] using this

/-- C9 (witness): two headers named `A`, one `Connection` header between
them, and a body after the blank line. -/
theorem readHeaders_returns_headers_witness :
    readHeaders { data := "A: b\r\nConnection: close\r\nA: c\r\n\r\nbody".toList } =
      (some [⟨"A".toList, "b".toList⟩, ⟨"A".toList, "c".toList⟩], { data := "body".toList }) :=
  readHeaders_returns_headers
    [⟨"A".toList, "b".toList⟩, ⟨"Connection".toList, "close".toList⟩, ⟨"A".toList, "c".toList⟩]
    "body".toList { data := "A: b\r\nConnection: close\r\nA: c\r\n\r\nbody".toList }
    (by decide) (by decide)

/-- C9 (counterexample): the block made of the line `X: a: b` and the blank
line is the block of one header, with name `X` and value `a: b`; `readHeaders`
fails on it and returns no header. -/
theorem readHeaders_fails_on_second_separator :
    "X: a: b\r\n\r\n".toList = Spec.headerBlock [⟨"X".toList, "a: b".toList⟩] ∧
    readHeaders { data := "X: a: b\r\n\r\n".toList } = (none, { data := "\r\n".toList }) := by
  decide

end Httpproxy

namespace Bufio

theorem WriteString_noFault (w : Writer) (s : Str) (hw : Spec.noFault w) :
    w.WriteString s = (false, { w with buf := w.buf ++ s, faults := w.faults.tail }) ∧
      Spec.noFault { w with buf := w.buf ++ s, faults := w.faults.tail } := by
  obtain ⟨he, hf⟩ := hw
  refine ⟨?_, he, fun b hb => hf b (List.mem_of_mem_tail hb)⟩
  unfold Writer.WriteString
  rw [he]
  match hfs : w.faults with
  | [] => simp
  | true :: fs =>
    have := hf true (by rw [hfs]; simp)
    simp at this
  | false :: fs => simp

theorem Flush_noFault (w : Writer) (hw : Spec.noFault w) :
    w.Flush = (false, { w with out := w.out ++ w.buf, buf := [], faults := w.faults.tail }) ∧
      Spec.noFault { w with out := w.out ++ w.buf, buf := [], faults := w.faults.tail } := by
  obtain ⟨he, hf⟩ := hw
  refine ⟨?_, he, fun b hb => hf b (List.mem_of_mem_tail hb)⟩
  unfold Writer.Flush
  rw [he]
  match hfs : w.faults with
  | [] => simp
  | true :: fs =>
    have := hf true (by rw [hfs]; simp)
    simp at this
  | false :: fs => simp

end Bufio

namespace Httpproxy

theorem writeHeadersLoop_noFault : ∀ (hs : List header) (w : Bufio.Writer), Spec.noFault w →
    ∃ w1, writeHeadersLoop w hs = (false, w1) ∧ Spec.noFault w1 ∧ w1.out = w.out ∧
      w1.buf = w.buf ++ Spec.headerLines hs := by
  intro hs
  induction hs with
  | nil =>
    intro w hw
    exact ⟨w, rfl, hw, rfl, by simp [Spec.headerLines]⟩
  | cons h hs ih =>
    intro w hw
    obtain ⟨e1, hw1⟩ := Bufio.WriteString_noFault w
      (h.name ++ [':', ' '] ++ h.value ++ ['\r', '\n']) hw
    obtain ⟨w2, e2, hw2, ho, hb⟩ := ih _ hw1
    refine ⟨w2, ?_, hw2, ho, ?_⟩
    · simp only [writeHeadersLoop, e1, e2]
    · rw [hb]
      simp [Spec.headerLines, Spec.headerLine]

theorem writeHeaders_noFault (hs : List header) (w : Bufio.Writer) (hw : Spec.noFault w) :
    ∃ w1, writeHeaders w hs = (false, w1) ∧ Spec.noFault w1 ∧
      w1.out = w.out ++ w.buf ++ Spec.headerBlock hs ∧ w1.buf = [] := by
  obtain ⟨w1, e1, hw1, ho1, hb1⟩ := writeHeadersLoop_noFault hs w hw
  obtain ⟨e2, hw2⟩ := Bufio.WriteString_noFault w1 ['\r', '\n'] hw1
  obtain ⟨e3, hw3⟩ := Bufio.Flush_noFault _ hw2
  refine ⟨_, ?_, hw3, ?_, rfl⟩
  · simp only [writeHeaders, e1, e2, e3]
  · simp only [ho1, hb1, Spec.headerBlock]
    simp

/-- C10 (amended): for every block of headers whose names and values hold
neither the separator `": "` nor a line feed, written as `Name: Value\r\n`
lines and ended by the blank line, and every writer on which no operation
fails: `readHeaders` succeeds on the block, `writeHeaders` applied to its
result succeeds, and the bytes it adds to the writer are the lines of the
block whose name is not `Connection`, in the original order, followed by one
`\r\n`; all of them are flushed. -/
theorem writeHeaders_readHeaders (hs : List header) (rest : Str) (r : Bufio.Reader)
    (w : Bufio.Writer) (hwf : ∀ h ∈ hs, Spec.wellFormedHeader h)
    (hd : r.data = Spec.headerBlock hs ++ rest) (hw : Spec.noFault w) :
    ∃ kept, (readHeaders r).1 = some kept ∧ (writeHeaders w kept).1 = false ∧
      (writeHeaders w kept).2.written =
        w.written ++ Spec.headerLines (Spec.withoutConnection hs) ++ ['\r', '\n'] ∧
      (writeHeaders w kept).2.buf = [] := by
  refine ⟨Spec.withoutConnection hs, ?_, ?_⟩
  · rw [readHeaders_block hs rest r hwf hd]
  · obtain ⟨w1, e1, _, ho, hb⟩ := writeHeaders_noFault (Spec.withoutConnection hs) w hw
    rw [e1]
    refine ⟨rfl, ?_, hb⟩
    simp only [Bufio.Writer.written, ho, hb, Spec.headerBlock]
    simp

/-- C10 (witness): the block `A: b`, `Connection: close`, `A: c` is written
back as `A: b\r\nA: c\r\n\r\n`. -/
theorem writeHeaders_readHeaders_witness :
    ∃ kept, (readHeaders { data := "A: b\r\nConnection: close\r\nA: c\r\n\r\n".toList }).1 =
        some kept ∧ (writeHeaders {} kept).1 = false ∧
      (writeHeaders {} kept).2.written = "A: b\r\nA: c\r\n\r\n".toList ∧
      (writeHeaders {} kept).2.buf = [] := by
  have := writeHeaders_readHeaders
    [⟨"A".toList, "b".toList⟩, ⟨"Connection".toList, "close".toList⟩, ⟨"A".toList, "c".toList⟩]
    [] { data := "A: b\r\nConnection: close\r\nA: c\r\n\r\n".toList } {}
    (by decide) (by decide) (by decide)
  exact this

/-- C10 (counterexample): the block of the two headers `Host: h` and
`X: a: b` (name `X`, value `a: b`), ended by the blank line: `readHeaders`
fails on it, so there is no result for `writeHeaders` to write back and the
block is not reproduced. -/
theorem writeHeaders_readHeaders_fails_on_second_separator :
    "Host: h\r\nX: a: b\r\n\r\n".toList =
      Spec.headerBlock [⟨"Host".toList, "h".toList⟩, ⟨"X".toList, "a: b".toList⟩] ∧
    (readHeaders { data := "Host: h\r\nX: a: b\r\n\r\n".toList }).1 = none ∧
    ¬ ∃ kept, (readHeaders { data := "Host: h\r\nX: a: b\r\n\r\n".toList }).1 = some kept ∧
      (writeHeaders {} kept).2.written = "Host: h\r\nX: a: b\r\n\r\n".toList := by
  have h : (readHeaders { data := "Host: h\r\nX: a: b\r\n\r\n".toList }).1 = none := by decide
  refine ⟨by decide, h, ?_⟩
  rintro ⟨kept, hk, _⟩
  rw [h] at hk
  cases hk

end Httpproxy

/-! ## Theorems: package `net/url` -/

namespace Url

theorem ishex_eq (c : Char) : ishex c = Spec.isHex c := by
  simp only [ishex, Spec.isHex, Spec.isDigit]
  rw [Bool.eq_iff_iff]
  simp [or_assoc]

theorem unescapeValid_cons_ne (mode : encoding) (c : Char) (rest : Str) (hc : c ≠ '%') :
    unescapeValid mode (c :: rest) =
      if (mode = encoding.encodeHost ∨ mode = encoding.encodeZone) ∧ c.toNat < 128 ∧
          shouldEscapeHost c then false
      else unescapeValid mode rest := by
  rw [unescapeValid.eq_def]
  simp only [hc, if_false]

theorem unescapeBytes_cons_ne (c : Char) (rest : Str) (hc : c ≠ '%') :
    unescapeBytes (c :: rest) = c :: unescapeBytes rest := by
  rw [unescapeBytes.eq_def]
  simp only [hc, if_false]

theorem escapesOk_cons_ne (c : Char) (rest : Str) (hc : c ≠ '%') :
    Spec.escapesOk (c :: rest) = Spec.escapesOk rest := by
  rw [Spec.escapesOk.eq_def]
  simp only [hc, if_false]

theorem unescapeValid_path_eq : ∀ (n : Nat) (s : Str), s.length ≤ n →
    unescapeValid encoding.encodePath s = Spec.escapesOk s := by
  intro n
  induction n with
  | zero =>
    intro s hs
    have : s = [] := List.length_eq_zero.1 (by omega)
    subst this
    simp [unescapeValid, Spec.escapesOk]
  | succ n ih =>
    intro s hs
    cases s with
    | nil => simp [unescapeValid, Spec.escapesOk]
    | cons c rest =>
      by_cases hc : c = '%'
      · match rest, hs with
        | [], _ => simp [unescapeValid, Spec.escapesOk, hc]
        | [a], _ => simp [unescapeValid, Spec.escapesOk, hc]
        | a :: b :: rest2, hs =>
          have := ih rest2 (by simp at hs ⊢; omega)
          simp only [unescapeValid, Spec.escapesOk, hc, if_true, this, ishex_eq]
          cases Spec.isHex a <;> cases Spec.isHex b <;> simp
      · have := ih rest (by simp at hs ⊢; omega)
        rw [unescapeValid_cons_ne _ _ _ hc, escapesOk_cons_ne _ _ hc, ← this]
        simp

theorem unhex_eq (c : Char) : unhex c = Spec.hexValue c := by
  unfold unhex Spec.hexValue Spec.isDigit
  by_cases h1 : 48 ≤ c.toNat ∧ c.toNat ≤ 57
  · simp [h1]
  · have h1b : (decide (48 ≤ c.toNat) && decide (c.toNat ≤ 57)) = false := by
      simpa using h1
    rw [if_neg h1, h1b]
    simp only [Bool.false_eq_true, if_false]
    by_cases h2 : 97 ≤ c.toNat ∧ c.toNat ≤ 102
    · rw [if_pos h2, if_pos h2]; omega
    · rw [if_neg h2, if_neg h2]
      by_cases h3 : 65 ≤ c.toNat ∧ c.toNat ≤ 70
      · rw [if_pos h3, if_pos h3]; omega
      · rw [if_neg h3, if_neg h3]

theorem pctDecode_cons_ne (c : Char) (rest : Str) (hc : c ≠ '%') :
    Spec.pctDecode (c :: rest) = c :: Spec.pctDecode rest := by
  rw [Spec.pctDecode.eq_def]
  simp only [hc, if_false]

theorem unescapeBytes_eq_pctDecode : ∀ (n : Nat) (s : Str), s.length ≤ n →
    unescapeBytes s = Spec.pctDecode s := by
  intro n
  induction n with
  | zero =>
    intro s hs
    have : s = [] := List.length_eq_zero.1 (by omega)
    subst this
    simp [unescapeBytes, Spec.pctDecode]
  | succ n ih =>
    intro s hs
    cases s with
    | nil => simp [unescapeBytes, Spec.pctDecode]
    | cons c rest =>
      by_cases hc : c = '%'
      · match rest, hs with
        | [], _ => simp [unescapeBytes, Spec.pctDecode, hc]
        | [a], _ => simp [unescapeBytes, Spec.pctDecode, hc]
        | a :: b :: rest2, hs =>
          have := ih rest2 (by simp at hs ⊢; omega)
          simp only [unescapeBytes, Spec.pctDecode, hc, if_true, this, unhex_eq]
          rw [Nat.mul_comm]
      · have := ih rest (by simp at hs ⊢; omega)
        rw [unescapeBytes_cons_ne _ _ hc, pctDecode_cons_ne _ _ hc, this]

theorem unescape_path (s : Str) (h : Spec.escapesOk s = true) :
    unescape s encoding.encodePath = some (Spec.pctDecode s) := by
  simp [unescape, unescapeValid_path_eq s.length s (le_refl _), h,
    unescapeBytes_eq_pctDecode s.length s (le_refl _)]

theorem unescapeValid_host (s : Str) (h : ∀ c ∈ s, c ≠ '%' ∧ shouldEscapeHost c = false) :
    unescapeValid encoding.encodeHost s = true := by
  induction s with
  | nil => simp [unescapeValid]
  | cons c rest ih =>
    have hc := h c (List.mem_cons_self _ _)
    have := ih (fun x hx => h x (List.mem_cons_of_mem _ hx))
    rw [unescapeValid_cons_ne _ _ _ hc.1]
    simp [hc.2, this]

theorem unescapeBytes_id (s : Str) (h : '%' ∉ s) : unescapeBytes s = s := by
  induction s with
  | nil => simp [unescapeBytes]
  | cons c rest ih =>
    have hc : c ≠ '%' := fun e => h (by simp [e])
    have := ih (fun hx => h (List.mem_cons_of_mem _ hx))
    rw [unescapeBytes_cons_ne _ _ hc, this]

theorem unescape_host (s : Str) (h : ∀ c ∈ s, c ≠ '%' ∧ shouldEscapeHost c = false) :
    unescape s encoding.encodeHost = some s := by
  have h2 : '%' ∉ s := fun hm => (h _ hm).1 rfl
  simp [unescape, unescapeValid_host s h, unescapeBytes_id s h2]

theorem LastIndex_none (s : Str) (c : Char) (h : c ∉ s) : LastIndex s c = none := by
  induction s with
  | nil => simp [LastIndex]
  | cons x rest ih =>
    have hx : x ≠ c := fun e => h (by simp [e])
    have := ih (fun hm => h (List.mem_cons_of_mem _ hm))
    simp [LastIndex, this, hx]

theorem LastIndex_append (a b : Str) (c : Char) (h : c ∉ b) :
    LastIndex (a ++ c :: b) c = some a.length := by
  induction a with
  | nil => simp [LastIndex, LastIndex_none b c h]
  | cons x rest ih => simp [LastIndex, ih]

theorem Cut_none (s : Str) (c : Char) (h : c ∉ s) : Cut s c = (s, []) := by
  have : Strings.Index s [c] = none :=
    (Strings.Index_eq_none_iff [c] s).2 (by rwa [Strings.singleton_infix_iff])
  simp [Cut, this]

theorem Index_single_append (a b : Str) (c : Char) (h : c ∉ a) :
    Strings.Index (a ++ c :: b) [c] = some a.length := by
  have := Strings.Index_append [c] a b (by simpa [Strings.singleton_infix_iff] using h)
  simpa using this

theorem Cut_append (a b : Str) (c : Char) (h : c ∉ a) : Cut (a ++ c :: b) c = (a, b) := by
  simp only [Cut, Index_single_append a b c h]
  simp [List.take_append_eq_append_take, List.drop_append_eq_append_drop]

theorem getSchemeLoop_scheme (rest : Str) : ∀ (s pre : Str), pre ≠ [] →
    (∀ x ∈ s, (Spec.isAlpha x || Spec.isDigit x || x == '+' || x == '-' || x == '.') = true) →
    getSchemeLoop (pre ++ s ++ ':' :: rest) pre.length (s ++ ':' :: rest) =
      some (pre ++ s, rest) := by
  intro s
  induction s with
  | nil =>
    intro pre hpre _
    have h0 : pre.length ≠ 0 := by simpa using hpre
    simp [getSchemeLoop, h0, List.take_append_eq_append_take]
  | cons x s ih =>
    intro pre hpre hs
    have hx := hs x (List.mem_cons_self _ _)
    have h0 : pre.length ≠ 0 := by simpa using hpre
    have ih2 := ih (pre ++ [x]) (by simp) (fun y hy => hs y (List.mem_cons_of_mem _ hy))
    simp only [List.append_assoc, List.singleton_append, List.length_append,
      List.length_singleton] at ih2
    simp only [List.cons_append, getSchemeLoop, List.append_assoc]
    simp only [Spec.isAlpha, Spec.isDigit, Bool.or_eq_true, Bool.and_eq_true, decide_eq_true_eq,
      beq_iff_eq] at hx
    by_cases ha : (97 ≤ x.toNat ∧ x.toNat ≤ 122) ∨ (65 ≤ x.toNat ∧ x.toNat ≤ 90)
    · rw [if_pos ha]; exact ih2
    · rw [if_neg ha]
      have hd : (48 ≤ x.toNat ∧ x.toNat ≤ 57) ∨ x = '+' ∨ x = '-' ∨ x = '.' := by
        rcases hx with (((h1 | h1) | h1) | h1) | h1
        · exact absurd h1 ha
        · left; exact h1
        · right; left; exact h1
        · right; right; left; exact h1
        · right; right; right; exact h1
      rw [if_pos hd, if_neg h0]; exact ih2

theorem getScheme_scheme (scheme rest : Str) (h : Spec.isScheme scheme = true) :
    getScheme (scheme ++ ':' :: rest) = some (scheme, rest) := by
  cases scheme with
  | nil => simp [Spec.isScheme] at h
  | cons a s =>
    simp only [Spec.isScheme, Bool.and_eq_true, List.all_eq_true] at h
    have ha : (97 ≤ a.toNat ∧ a.toNat ≤ 122) ∨ (65 ≤ a.toNat ∧ a.toNat ≤ 90) := by
      simpa [Spec.isAlpha] using h.1
    have := getSchemeLoop_scheme rest s [a] (by simp) h.2
    simp only [List.singleton_append, List.length_singleton] at this
    simp only [getScheme, List.cons_append, getSchemeLoop, if_pos ha, zero_add]
    exact this

end Url

namespace Url

theorem char_ne_of_toNat (c d : Char) (h : c.toNat ≠ d.toNat) : c ≠ d := by
  intro e; exact h (by rw [e])

theorem hostChar_facts (c : Char) (h : Spec.isHostChar c = true) :
    (c ≠ '%' ∧ shouldEscapeHost c = false) ∧ Spec.isVisible c = true ∧ c ≠ ':' ∧ c ≠ '/' ∧
      c ≠ '?' ∧ c ≠ '#' ∧ c ≠ '@' ∧ c ≠ '[' := by
  simp only [Spec.isHostChar, Spec.isAlpha, Spec.isDigit, Bool.or_eq_true, Bool.and_eq_true,
    decide_eq_true_eq] at h
  have t1 : ('%' : Char).toNat = 37 := by decide
  have t2 : (':' : Char).toNat = 58 := by decide
  have t3 : ('/' : Char).toNat = 47 := by decide
  have t4 : ('?' : Char).toNat = 63 := by decide
  have t5 : ('#' : Char).toNat = 35 := by decide
  have t6 : ('@' : Char).toNat = 64 := by decide
  have t7 : ('[' : Char).toNat = 91 := by decide
  rcases h with (h | h) | h
  · refine ⟨⟨?_, ?_⟩, ?_, ?_, ?_, ?_, ?_, ?_, ?_⟩
    · apply char_ne_of_toNat; omega
    · simp only [shouldEscapeHost]
      rw [if_pos (by omega)]
    · simp only [Spec.isVisible, Bool.and_eq_true, decide_eq_true_eq, bne_iff_ne, ne_eq]
      omega
    all_goals (apply char_ne_of_toNat; omega)
  · refine ⟨⟨?_, ?_⟩, ?_, ?_, ?_, ?_, ?_, ?_, ?_⟩
    · apply char_ne_of_toNat; omega
    · simp only [shouldEscapeHost]
      rw [if_pos (by omega)]
    · simp only [Spec.isVisible, Bool.and_eq_true, decide_eq_true_eq, bne_iff_ne, ne_eq]
      omega
    all_goals (apply char_ne_of_toNat; omega)
  · simp only [List.mem_cons, List.mem_singleton, List.not_mem_nil, or_false] at h
    rcases h with rfl | rfl | rfl | rfl | rfl | rfl | rfl | rfl | rfl | rfl | rfl | rfl | rfl |
      rfl | rfl <;> decide

theorem digit_hostChar (c : Char) (h : 48 ≤ c.toNat ∧ c.toNat ≤ 57) : Spec.isHostChar c = true := by
  simp [Spec.isHostChar, Spec.isDigit, h]

theorem allDigits_hostChar (p : Str) (h : Spec.allDigits p = true) :
    ∀ c ∈ p, Spec.isHostChar c = true := by
  intro c hc
  simp only [Spec.allDigits, List.all_eq_true, Bool.and_eq_true, decide_eq_true_eq] at h
  exact digit_hostChar c (h c hc)

theorem scheme_hostChar (s : Str) (h : Spec.isScheme s = true) :
    ∀ c ∈ s, Spec.isHostChar c = true := by
  cases s with
  | nil => simp [Spec.isScheme] at h
  | cons a t =>
    simp only [Spec.isScheme, Bool.and_eq_true, List.all_eq_true] at h
    intro c hc
    simp only [List.mem_cons] at hc
    rcases hc with rfl | hc
    · simp [Spec.isHostChar, h.1]
    · have := h.2 c hc
      simp only [Bool.or_eq_true, beq_iff_eq] at this
      rcases this with (((h1 | h1) | h1) | h1) | h1
      · simp [Spec.isHostChar, h1]
      · simp [Spec.isHostChar, h1]
      · subst h1; decide
      · subst h1; decide
      · subst h1; decide

end Url

namespace Url

theorem HasPrefix_single_false (s : Str) (x : Char) (h : ∀ c ∈ s, c ≠ x) :
    Strings.HasPrefix s [x] = false := by
  cases s with
  | nil => rfl
  | cons c t =>
    have := h c (List.mem_cons_self _ _)
    simp [Strings.HasPrefix, List.isPrefixOf, this.symm]

theorem HasSuffix_single_false (s : Str) (x : Char) (h : x ∉ s) :
    Strings.HasSuffix s [x] = false := by
  simp only [Strings.HasSuffix, Bool.eq_false_iff, ne_eq, List.isSuffixOf_iff_suffix]
  intro hs
  exact h (hs.subset (List.mem_singleton_self x))

theorem cutQuery_eq (A : Str) (query : Option Str) (hA : '?' ∉ A) :
    cutQuery (A ++ Spec.queryText query) = (A, query.getD []) := by
  cases query with
  | none =>
    simp only [Spec.queryText, List.append_nil, Option.getD_none, cutQuery,
      HasSuffix_single_false A '?' hA, Bool.false_and]
    exact Cut_none A '?' hA
  | some q =>
    simp only [Spec.queryText, Option.getD_some, cutQuery]
    by_cases hc : (Strings.HasSuffix (A ++ '?' :: q) ['?'] &&
        (A ++ '?' :: q).count '?' == 1) = true
    · rw [if_pos hc]
      simp only [Bool.and_eq_true, beq_iff_eq] at hc
      have hq0 : q.count '?' = 0 := by
        have := hc.2
        simp [List.count_eq_zero_of_not_mem hA] at this
        exact this
      have hq : '?' ∉ q := List.count_eq_zero.1 hq0
      have hqe : q = [] := by
        rcases List.eq_nil_or_concat q with h | ⟨q', x, rfl⟩
        · exact h
        · exfalso
          have h1 := hc.1
          simp only [Strings.HasSuffix, List.isSuffixOf_iff_suffix, List.concat_eq_append] at h1
          obtain ⟨t, ht⟩ := h1
          have h2 : (A ++ '?' :: q') ++ [x] = t ++ ['?'] := by rw [ht]; simp
          have h3 := (List.append_inj' h2 rfl).2
          simp only [List.cons.injEq, and_true] at h3
          apply hq
          simp [h3]
      subst hqe
      simp [List.dropLast_concat]
    · rw [if_neg hc]
      exact Cut_append A q '?' hA

theorem splitAuthority_eq (hp path : Str) (h1 : '/' ∉ hp)
    (h2 : path = [] ∨ path.head? = some '/') :
    splitAuthority ('/' :: '/' :: (hp ++ path)) = (hp, path) := by
  simp only [splitAuthority, List.drop_succ_cons, List.drop_zero]
  rcases h2 with rfl | h2
  · have : Strings.Index hp ['/'] = none :=
      (Strings.Index_eq_none_iff _ _).2 (by rwa [Strings.singleton_infix_iff])
    simp [this]
  · cases path with
    | nil => simp at h2
    | cons x p =>
      simp only [List.head?_cons, Option.some.injEq] at h2
      subst h2
      rw [Index_single_append hp p '/' h1]
      simp [List.take_append_eq_append_take, List.drop_append_eq_append_drop]

theorem ToLower_ne_nil (s : Str) (h : s ≠ []) : ToLower s ≠ [] := by
  simpa [ToLower] using h

/-- The bytes a host with an optional port may hold. -/
theorem hostport_facts (host : Str) (port : Option Str) (hh : Spec.isHost host = true)
    (hport : ∀ p, port = some p → Spec.isPort p = true) :
    ∀ c ∈ host ++ Spec.portText port, (c ≠ '%' ∧ shouldEscapeHost c = false) ∧
      Spec.isVisible c = true ∧ c ≠ '/' ∧ c ≠ '?' ∧ c ≠ '#' ∧ c ≠ '@' ∧ c ≠ '[' := by
  have hhost : ∀ c ∈ host, Spec.isHostChar c = true := by
    simpa [Spec.isHost, List.all_eq_true] using hh
  have hc : ∀ c, Spec.isHostChar c = true → (c ≠ '%' ∧ shouldEscapeHost c = false) ∧
      Spec.isVisible c = true ∧ c ≠ '/' ∧ c ≠ '?' ∧ c ≠ '#' ∧ c ≠ '@' ∧ c ≠ '[' := by
    intro c h
    obtain ⟨a, b, _, d, e, f, g, i⟩ := hostChar_facts c h
    exact ⟨a, b, d, e, f, g, i⟩
  intro c hm
  rw [List.mem_append] at hm
  rcases hm with hm | hm
  · exact hc c (hhost c hm)
  · cases port with
    | none => simp [Spec.portText] at hm
    | some p =>
      simp only [Spec.portText, List.mem_cons] at hm
      rcases hm with rfl | hm
      · decide
      · have hp := hport p rfl
        simp only [Spec.isPort, Bool.and_eq_true] at hp
        exact hc c (allDigits_hostChar p hp.1.2 c hm)

theorem urlParseHost_hostport (host : Str) (port : Option Str) (hh : Spec.isHost host = true)
    (hport : ∀ p, port = some p → Spec.isPort p = true) :
    parseHost (host ++ Spec.portText port) = some (host ++ Spec.portText port) := by
  have hf := hostport_facts host port hh hport
  have hpre : Strings.HasPrefix (host ++ Spec.portText port) ['['] = false :=
    HasPrefix_single_false _ _ (fun c hc => (hf c hc).2.2.2.2.2.2)
  have hun := unescape_host (host ++ Spec.portText port) (fun c hc => (hf c hc).1)
  have hhost : ∀ c ∈ host, Spec.isHostChar c = true := by
    simpa [Spec.isHost, List.all_eq_true] using hh
  have hcolon : ':' ∉ host := fun hm => (hostChar_facts ':' (hhost _ hm)).2.2.1 rfl
  unfold parseHost
  rw [hpre]
  simp only [Bool.false_eq_true, if_false]
  cases port with
  | none =>
    simp only [Spec.portText, List.append_nil] at hun ⊢
    rw [LastIndex_none host ':' hcolon]
    exact hun
  | some p =>
    have hp := hport p rfl
    simp only [Spec.isPort, Bool.and_eq_true] at hp
    have hpc : ':' ∉ p := fun hm =>
      (hostChar_facts ':' (allDigits_hostChar p hp.1.2 _ hm)).2.2.1 rfl
    simp only [Spec.portText] at hun ⊢
    rw [LastIndex_append host p ':' hpc]
    have hv : validOptionalPort (List.drop host.length (host ++ ':' :: p)) = true := by
      rw [List.drop_append_eq_append_drop]
      simp only [List.drop_length, Nat.sub_self, List.drop_zero, List.nil_append,
        validOptionalPort, decide_True, Bool.true_and]
      have := hp.1.2
      simpa [Spec.allDigits] using this
    simp only [hv, Bool.not_true, Bool.false_eq_true, if_false]
    exact hun

theorem parseAuthority_hostport (host : Str) (port : Option Str) (hh : Spec.isHost host = true)
    (hport : ∀ p, port = some p → Spec.isPort p = true) :
    parseAuthority (host ++ Spec.portText port) = some (host ++ Spec.portText port) := by
  have hf := hostport_facts host port hh hport
  have hat : '@' ∉ host ++ Spec.portText port := fun hm => (hf _ hm).2.2.2.2.2.1 rfl
  unfold parseAuthority
  rw [LastIndex_none _ '@' hat]
  exact urlParseHost_hostport host port hh hport

end Url

namespace Url

theorem absoluteURL_eq (scheme host : Str) (port : Option Str) (path : Str) (query : Option Str) :
    Spec.absoluteURL scheme host port path query =
      scheme ++ ':' :: (('/' :: '/' :: (host ++ Spec.portText port ++ path)) ++
        Spec.queryText query) := by
  simp [Spec.absoluteURL, List.append_assoc]

theorem path_facts (path : Str) (h : Spec.isPath path = true) :
    (path = [] ∨ path.head? = some '/') ∧
      (∀ c ∈ path, Spec.isVisible c = true ∧ c ≠ '?' ∧ c ≠ '#') ∧ Spec.escapesOk path = true := by
  simp only [Spec.isPath, Bool.and_eq_true, Bool.or_eq_true, beq_iff_eq, List.all_eq_true,
    bne_iff_ne, ne_eq] at h
  refine ⟨h.1.1, fun c hc => ?_, h.2⟩
  have := h.1.2 c hc
  exact ⟨this.1.1, this.1.2, this.2⟩

theorem query_facts (query : Option Str) (h : ∀ q, query = some q → Spec.isQuery q = true) :
    ∀ c ∈ Spec.queryText query, Spec.isVisible c = true ∧ c ≠ '#' := by
  intro c hc
  cases query with
  | none => simp [Spec.queryText] at hc
  | some q =>
    simp only [Spec.queryText, List.mem_cons] at hc
    rcases hc with rfl | hc
    · decide
    · have := h q rfl
      simp only [Spec.isQuery, List.all_eq_true, Bool.and_eq_true, bne_iff_ne, ne_eq] at this
      exact this c hc

theorem absoluteURL_bytes (scheme host : Str) (port : Option Str) (path : Str)
    (query : Option Str) (hs : Spec.isScheme scheme = true) (hh : Spec.isHost host = true)
    (hport : ∀ p, port = some p → Spec.isPort p = true) (hpath : Spec.isPath path = true)
    (hq : ∀ q, query = some q → Spec.isQuery q = true) :
    ∀ c ∈ Spec.absoluteURL scheme host port path query, Spec.isVisible c = true ∧ c ≠ '#' := by
  intro c hc
  rw [absoluteURL_eq] at hc
  simp only [List.mem_append, List.mem_cons] at hc
  rcases hc with hc | rfl | (rfl | rfl | (hc | hc) | hc) | hc
  · have := hostChar_facts c (scheme_hostChar scheme hs c hc)
    exact ⟨this.2.1, this.2.2.2.2.2.1⟩
  · decide
  · decide
  · decide
  · have := hostport_facts host port hh hport c (List.mem_append_left _ hc)
    exact ⟨this.2.1, this.2.2.2.2.1⟩
  · have := hostport_facts host port hh hport c (List.mem_append_right _ hc)
    exact ⟨this.2.1, this.2.2.2.2.1⟩
  · have := (path_facts path hpath).2.1 c hc
    exact ⟨this.1, this.2.2⟩
  · exact query_facts query hq c hc

theorem isVisible_not_ctl (s : Str) (h : ∀ c ∈ s, Spec.isVisible c = true) :
    stringContainsCTLByte s = false := by
  simp only [stringContainsCTLByte, List.any_eq_false, Bool.or_eq_true, decide_eq_true_eq,
    not_or]
  intro c hc
  have := h c hc
  simp only [Spec.isVisible, Bool.and_eq_true, decide_eq_true_eq, bne_iff_ne, ne_eq] at this
  omega

theorem Parse_absoluteURL (scheme host : Str) (port : Option Str) (path : Str)
    (query : Option Str) (hs : Spec.isScheme scheme = true) (hh : Spec.isHost host = true)
    (hport : ∀ p, port = some p → Spec.isPort p = true) (hpath : Spec.isPath path = true)
    (hq : ∀ q, query = some q → Spec.isQuery q = true) :
    Parse (Spec.absoluteURL scheme host port path query) =
      some { Scheme := ToLower scheme, Host := host ++ Spec.portText port,
             Path := Spec.pctDecode path, RawQuery := query.getD [] } := by
  have hb := absoluteURL_bytes scheme host port path query hs hh hport hpath hq
  have hhash : '#' ∉ Spec.absoluteURL scheme host port path query := fun hm => (hb _ hm).2 rfl
  have hctl := isVisible_not_ctl _ (fun c hc => (hb c hc).1)
  have hstar : Spec.absoluteURL scheme host port path query ≠ ['*'] := by
    intro e
    have : ':' ∈ Spec.absoluteURL scheme host port path query := by
      rw [absoluteURL_eq]; simp
    rw [e] at this
    simp at this
  have hf := hostport_facts host port hh hport
  obtain ⟨hp1, hp2, hp3⟩ := path_facts path hpath
  have hA : '?' ∉ '/' :: '/' :: (host ++ Spec.portText port ++ path) := by
    simp only [List.mem_cons, List.mem_append, not_or]
    refine ⟨by decide, by decide, ⟨?_, ?_⟩, ?_⟩
    · intro hm; exact (hf _ (List.mem_append_left _ hm)).2.2.2.1 rfl
    · intro hm; exact (hf _ (List.mem_append_right _ hm)).2.2.2.1 rfl
    · intro hm; exact (hp2 _ hm).2.1 rfl
  have hslash : '/' ∉ host ++ Spec.portText port := fun hm => (hf _ hm).2.2.1 rfl
  have hne : scheme ≠ [] := by
    intro e; rw [e] at hs; simp [Spec.isScheme] at hs
  have hlow := ToLower_ne_nil scheme hne
  have hparse : parse (Spec.absoluteURL scheme host port path query) =
      some { Scheme := ToLower scheme, Host := host ++ Spec.portText port,
             Path := Spec.pctDecode path, RawQuery := query.getD [] } := by
    unfold parse
    rw [hctl]
    simp only [Bool.false_eq_true, if_false, if_neg hstar]
    rw [absoluteURL_eq, getScheme_scheme scheme _ hs]
    simp only [cutQuery_eq _ query hA]
    have e1 : Strings.HasPrefix ('/' :: '/' :: (host ++ Spec.portText port ++ path)) ['/'] = true := by
      simp [Strings.HasPrefix, List.isPrefixOf]
    have e2 : Strings.HasPrefix ('/' :: '/' :: (host ++ Spec.portText port ++ path)) ['/', '/']
        = true := by
      simp [Strings.HasPrefix, List.isPrefixOf]
    rw [if_neg (by intro hc; rw [e1] at hc; simp at hc),
      if_neg (by intro hc; rw [e1] at hc; simp at hc), if_pos ⟨Or.inl hlow, e2⟩]
    simp only [splitAuthority_eq _ path hslash hp1, parseAuthority_hostport host port hh hport,
      unescape_path path hp3]
  unfold Parse
  rw [Cut_none _ '#' hhash, hparse]
  simp

end Url

/-! ## Theorems: request lines with an absolute URL -/

namespace Httpproxy

theorem base10Int_digits (p : Str) (hne : p ≠ []) (hd : Spec.allDigits p = true) :
    Spec.base10Int p = some (Spec.decimalValue p : Int) := by
  cases p with
  | nil => exact absurd rfl hne
  | cons d t =>
    have hdig : 48 ≤ d.toNat ∧ d.toNat ≤ 57 := by
      simp only [Spec.allDigits, List.all_cons, Bool.and_eq_true, decide_eq_true_eq] at hd
      exact hd.1
    have h1 : d ≠ '-' := by
      apply Url.char_ne_of_toNat
      have : ('-' : Char).toNat = 45 := by decide
      omega
    have h2 : d ≠ '+' := by
      apply Url.char_ne_of_toNat
      have : ('+' : Char).toNat = 43 := by decide
      omega
    simp [Spec.base10Int, h1, h2, hd]

theorem isPort_facts (p : Str) (hp : Spec.isPort p = true) :
    p ≠ [] ∧ Spec.allDigits p = true ∧ Spec.decimalValue p < 2 ^ 63 := by
  simp only [Spec.isPort, Bool.and_eq_true, decide_eq_true_eq] at hp
  exact ⟨hp.1.1, hp.1.2, hp.2⟩

theorem fitsInt_of_lt (n : Nat) (h : n < 2 ^ 63) : Spec.fitsInt (n : Int) := by
  unfold Spec.fitsInt
  constructor <;> omega

theorem parseHost_hostport (host : Str) (port : Option Str) (hh : Spec.isHost host = true)
    (hport : ∀ p, port = some p → Spec.isPort p = true) :
    parseHost (host ++ Spec.portText port) = some (host, Spec.portOf port) := by
  have hhost : ∀ c ∈ host, Spec.isHostChar c = true := by
    simpa [Spec.isHost, List.all_eq_true] using hh
  have hcolon : ':' ∉ host := fun hm => (Url.hostChar_facts ':' (hhost _ hm)).2.2.1 rfl
  cases port with
  | none =>
    simp only [Spec.portText, List.append_nil, Spec.portOf, parseHost,
      Strings.Split_single_of_not_mem ':' host hcolon]
  | some p =>
    obtain ⟨hne, hd, hlt⟩ := isPort_facts p (hport p rfl)
    have hpc : ':' ∉ p := fun hm =>
      (Url.hostChar_facts ':' (Url.allDigits_hostChar p hd _ hm)).2.2.1 rfl
    have hfit := fitsInt_of_lt _ hlt
    show parseHost (host ++ ':' :: p) = some (host, (Spec.decimalValue p : Int))
    rw [parseHost_one_colon host p hcolon hpc, base10Int_digits p hne hd, Option.some_bind,
      if_pos hfit]

/-- C1 (amended): for every request line `M U P` where `M` is not `CONNECT`,
`M` and `P` hold no space and `U` is an absolute URL
`scheme://host[:port][path][?query]` with a scheme of letters, digits, `+`,
`-`, `.` starting with a letter; a host that is a registered name, of
unreserved bytes and sub-delimiters (so without colon, brackets and
escapes); a port
that, when the colon is there, is one or more decimal digits denoting a number
below 2^63; a path that is empty or starts with `/`, with well-formed escapes;
a query without `#`: `parseRequestLine` succeeds and returns method `M`, the
scheme in lower case, the host, the port (80 when the URL names none),
protocol `P` and the query exactly as written; the path it returns is the
percent-decoded path. -/
theorem parseRequestLine_absoluteURL (M P scheme host : Str) (port : Option Str) (path : Str)
    (query : Option Str) (hM : ' ' ∉ M ∧ M ≠ "CONNECT".toList) (hP : ' ' ∉ P)
    (hs : Spec.isScheme scheme = true) (hh : Spec.isHost host = true)
    (hport : ∀ p ∈ port, Spec.isPort p = true) (hpath : Spec.isPath path = true)
    (hq : ∀ q ∈ query, Spec.isQuery q = true) :
    parseRequestLine (M ++ ' ' :: (Spec.absoluteURL scheme host port path query ++ ' ' :: P)) =
      some { method := M, scheme := Spec.asciiLower scheme, host := host,
             port := Spec.portOf port, path := Spec.pctDecode path, query := query.getD [],
             protocol := P } := by
  have hport2 : ∀ p, port = some p → Spec.isPort p = true := fun p hp => hport p hp
  have hq2 : ∀ q, query = some q → Spec.isQuery q = true := fun q hq0 => hq q hq0
  have hU : ' ' ∉ Spec.absoluteURL scheme host port path query := by
    intro hm
    have := (Url.absoluteURL_bytes scheme host port path query hs hh hport2 hpath hq2 _ hm).1
    revert this
    decide
  unfold parseRequestLine
  rw [Split_three M _ P hM.1 hU hP]
  simp only [if_neg hM.2, Url.Parse_absoluteURL scheme host port path query hs hh hport2 hpath hq2,
    parseHost_hostport host port hh hport2]
  rfl

/-- C1 (witness): the line `POST http://www.google.com:8888/?k=%E4%BD%A0%E5%A5%BD
HTTP/1.1` of the package's test. -/
theorem parseRequestLine_absoluteURL_witness :
    parseRequestLine "POST http://www.google.com:8888/?k=%E4%BD%A0%E5%A5%BD HTTP/1.1".toList =
      some { method := "POST".toList, scheme := "http".toList, host := "www.google.com".toList,
             port := 8888, path := "/".toList, query := "k=%E4%BD%A0%E5%A5%BD".toList,
             protocol := "HTTP/1.1".toList } :=
  parseRequestLine_absoluteURL "POST".toList "HTTP/1.1".toList "http".toList
    "www.google.com".toList (some "8888".toList) "/".toList (some "k=%E4%BD%A0%E5%A5%BD".toList)
    (by decide) (by decide) (by decide) (by decide) (by decide) (by decide) (by decide)

/-- C1 (counterexample): `http://h:9223372036854775808/` and `http://h:/` are
of the form `scheme://host[:port][path]`, the first with a port that does not
fit the `int`, the second with an empty port, and `parseRequestLine` fails on
the request lines that carry them; it fails as well on the IP literal of
`http://[::1]:8080/`, whose host holds colons, and on `http://h%41/`, whose
host holds an escape; and for `HTTP://h/` the scheme it returns is `http`, not
the scheme as written. -/
theorem parseRequestLine_fails_on_absolute_urls :
    "http://h:9223372036854775808/".toList =
      Spec.absoluteURL "http".toList "h".toList (some "9223372036854775808".toList) "/".toList
        none ∧
    parseRequestLine "GET http://h:9223372036854775808/ HTTP/1.1".toList = none ∧
    "http://h:/".toList = Spec.absoluteURL "http".toList "h".toList (some []) "/".toList none ∧
    parseRequestLine "GET http://h:/ HTTP/1.1".toList = none ∧
    parseRequestLine "GET http://[::1]:8080/ HTTP/1.1".toList = none ∧
    parseRequestLine "GET http://h%41/ HTTP/1.1".toList = none ∧
    (parseRequestLine "GET HTTP://h/ HTTP/1.1".toList).map (fun r => r.scheme) =
      some "http".toList := by
  decide

end Httpproxy

namespace Httpproxy

/-- C2 (the code at the failing input): for the request line
`GET http://x.com/a%20b HTTP/1.1`, whose target is an absolute URL with the
path `/a%20b`, `parseRequestLine` returns the percent-decoded path `/a b`, and
`writeRemoteReqFirstLine` writes `GET /a b HTTP/1.1\r\n`: the target written is
not the path as the client wrote it. -/
theorem writeRemoteReqFirstLine_writes_decoded_path :
    parseRequestLine "GET http://x.com/a%20b HTTP/1.1".toList =
      some { method := "GET".toList, scheme := "http".toList, host := "x.com".toList, port := 80,
             path := "/a b".toList, query := [], protocol := "HTTP/1.1".toList } ∧
    writeRemoteReqFirstLine {}
        { method := "GET".toList, scheme := "http".toList, host := "x.com".toList, port := 80,
          path := "/a b".toList, query := [], protocol := "HTTP/1.1".toList } =
      (false, { buf := "GET /a b HTTP/1.1\r\n".toList }) ∧
    "GET /a b HTTP/1.1\r\n".toList ≠ "GET /a%20b HTTP/1.1\r\n".toList := by
  decide

end Httpproxy

/-! ## Theorems: sessions (`process`) -/

namespace Httpproxy

theorem parseRequestLine_of_few_fields (line : Str) (hf : line.count ' ' < 2) :
    parseRequestLine line = none := by
  have hl := Strings.Split_single_length ' ' line.length line (le_refl _)
  unfold parseRequestLine
  match hs : Strings.Split line [' '] with
  | [] => rfl
  | [_] => rfl
  | [_, _] => rfl
  | _ :: _ :: _ :: _ =>
    rw [hs] at hl
    simp only [List.length_cons] at hl
    omega

theorem readLine_some_length (r : Bufio.Reader) (line : Str) (r1 : Bufio.Reader)
    (h : readLine r = (some line, r1)) : r1.data.length < r.data.length := by
  by_cases hm : '\n' ∈ r.data
  · obtain ⟨body, rest, hd, hb⟩ := List.eq_append_cons_of_mem hm
    by_cases hcr : body.getLast? = some '\r'
    · obtain ⟨l, rfl⟩ : ∃ l, body = l ++ ['\r'] := by
        rcases List.eq_nil_or_concat body with rfl | ⟨b', x, rfl⟩
        · simp at hcr
        · simp at hcr
          exact ⟨b', by rw [hcr, List.concat_eq_append]⟩
      have hl : '\n' ∉ l := fun hx => hb (List.mem_append_left _ hx)
      rw [readLine_of_crlf r l rest (by rw [hd]; simp) hl] at h
      simp only [Prod.mk.injEq, Option.some.injEq] at h
      rw [← h.2, hd]
      simp only [List.length_append, List.length_cons, List.length_nil]
      omega
    · rw [readLine_of_no_cr r body rest hd hb hcr] at h
      simp at h
  · rw [readLine_of_not_mem r hm] at h
    simp at h

theorem readHeadersLoop_fuel : ∀ (n m : Nat) (r : Bufio.Reader) (acc : List header),
    r.data.length < n → r.data.length < m → readHeadersLoop n r acc = readHeadersLoop m r acc := by
  intro n
  induction n with
  | zero => intro m r acc h; omega
  | succ n ih =>
    intro m r acc hn hm
    cases m with
    | zero => omega
    | succ m =>
      simp only [readHeadersLoop]
      cases hr : readLine r with
      | mk o r1 =>
        cases o with
        | none => rfl
        | some line =>
          have hlt := readLine_some_length r line r1 hr
          simp only
          split_ifs
          · rfl
          · cases parseHeader line with
            | none => rfl
            | some h =>
              simp only
              split_ifs
              · exact ih m r1 acc (by omega) (by omega)
              · exact ih m r1 _ (by omega) (by omega)

/-- C6: for every session whose request line holds fewer than two spaces, that
is, splits on single spaces into fewer than 3 fields: `parseRequestLine` fails
on the line, `process` returns an error, and the session does nothing to the
outside: no upstream connection is attempted. -/
theorem process_rejects_short_request_line (order : Interleaving)
    (dial : Str → Int → Option Conn) (client : Conn)
    (line rest : Str) (hd : client.reader.data = line ++ ['\r', '\n'] ++ rest)
    (hl : '\n' ∉ line) (hf : line.count ' ' < 2) :
    parseRequestLine line = none ∧ (process order dial client).result = StepEnd.error ∧
      (process order dial client).events = [] ∧
      ∀ host port, Event.dial host port ∉ (process order dial client).events := by
  have hp := parseRequestLine_of_few_fields line hf
  have hb : buildReq client.reader = (none, { client.reader with data := rest }) := by
    simp only [buildReq, readLine_of_crlf client.reader line rest hd hl, hp]
  have he : process order dial client =
      { result := StepEnd.error, events := [], client := client.writer, remote := none } := by
    simp only [process, hb]
  refine ⟨hp, ?_, ?_, ?_⟩
  · rw [he]
  · rw [he]
  · intro host port
    rw [he]
    simp

/-- C6 (witness): the request line `GET HTTP/1.1`, with an upstream that would
accept the connection. -/
theorem process_rejects_short_request_line_witness :
    parseRequestLine "GET HTTP/1.1".toList = none ∧
      (process Interleaving.downLast (fun _ _ => some { reader := { data := [] }, writer := {} })
        { reader := { data := "GET HTTP/1.1\r\n\r\n".toList }, writer := {} }).result =
          StepEnd.error ∧
      (process Interleaving.downLast (fun _ _ => some { reader := { data := [] }, writer := {} })
        { reader := { data := "GET HTTP/1.1\r\n\r\n".toList }, writer := {} }).events = [] ∧
      ∀ host port, Event.dial host port ∉
        (process Interleaving.downLast (fun _ _ => some { reader := { data := [] }, writer := {} })
          { reader := { data := "GET HTTP/1.1\r\n\r\n".toList }, writer := {} }).events :=
  process_rejects_short_request_line Interleaving.downLast
    (fun _ _ => some { reader := { data := [] }, writer := {} })
    { reader := { data := "GET HTTP/1.1\r\n\r\n".toList }, writer := {} }
    "GET HTTP/1.1".toList "\r\n".toList (by decide) (by decide) (by decide)

end Httpproxy

/-! ## Theorems: the loops always end within their bound -/

namespace Bufio

theorem Read_none_length (r : Reader) (size : Nat) (hs : 0 < size) (bytes : Str) (r1 : Reader)
    (h : r.Read size = ((bytes, none), r1)) : r1.data.length < r.data.length := by
  unfold Reader.Read at h
  by_cases hd : r.data = []
  · rw [if_pos hd] at h
    simp at h
  · rw [if_neg hd] at h
    simp only [Prod.mk.injEq, and_true] at h
    have hpos : 0 < r.data.length := List.length_pos.2 hd
    rw [← h.2]
    simp only [List.length_drop]
    cases r.chunks with
    | nil =>
      simp only
      omega
    | cons k t =>
      simp only
      omega

theorem Read_err_cases (r : Reader) (size : Nat) :
    (r.Read size).1.2 = none ∨ (r.Read size).1.2 = some ReadErr.eof ∨
      (r.Read size).1.2 = some ReadErr.other := by
  cases h : (r.Read size).1.2 with
  | none => simp
  | some e => cases e <;> simp

end Bufio

namespace Httpproxy

theorem transferDataLoop_fuel : ∀ (n m : Nat) (source : Bufio.Reader) (dest : Bufio.Writer)
    (size total : Int), source.data.length < n → source.data.length < m →
    transferDataLoop n source dest size total = transferDataLoop m source dest size total := by
  intro n
  induction n with
  | zero => intro m source dest size total h; omega
  | succ n ih =>
    intro m source dest size total hn hm
    cases m with
    | zero => omega
    | succ m =>
      cases hr : source.Read 8192 with
      | mk br source1 =>
        obtain ⟨bytes, readErr⟩ := br
        cases readErr with
        | none =>
          have hlt := Bufio.Read_none_length source 8192 (by norm_num) bytes source1 hr
          have key : ∀ d t, transferDataLoop n source1 d size t =
              transferDataLoop m source1 d size t :=
            fun d t => ih m source1 d size t (by omega) (by omega)
          simp only [transferDataLoop, hr, key]
        | some e =>
          cases e with
          | eof => simp only [transferDataLoop, hr, if_true, reduceCtorEq, if_false,
              Option.some.injEq]
          | other => simp only [transferDataLoop, hr, if_true]

/-- The rounds `transferData` allows are never used up: any larger bound gives
the same result. -/
theorem transferData_fuel (source : Bufio.Reader) (dest : Bufio.Writer) (size : Int) (n : Nat)
    (h : source.data.length < n) :
    transferDataLoop n source dest size 0 = transferData source dest size :=
  transferDataLoop_fuel n _ source dest size 0 h (Nat.lt_succ_self _)

/-- The rounds `readHeaders` allows are never used up: any larger bound gives
the same result. -/
theorem readHeaders_fuel (r : Bufio.Reader) (n : Nat) (h : r.data.length < n) :
    readHeadersLoop n r [] = readHeaders r :=
  readHeadersLoop_fuel n _ r [] h (Nat.lt_succ_self _)

end Httpproxy

/-! ## Theorems: the first line upstream and the tunnel response -/

namespace Httpproxy

theorem writeRemoteReqFirstLine_eq (w : Bufio.Writer) (req : request) :
    writeRemoteReqFirstLine w req = w.WriteString (Spec.requestFirstLine req) := by
  unfold writeRemoteReqFirstLine Spec.requestFirstLine Spec.requestTarget
  by_cases hq : req.query = []
  · simp [hq]
  · simp [hq]

/-- C11: for every request and every writer, `writeRemoteReqFirstLine` hands
the upstream writer exactly the line `METHOD PATH PROTOCOL\r\n` in one
`WriteString`, where `PATH` is the request's path, or `/` when the path is
empty, followed by `?` and the query when the query is not empty and by
nothing otherwise; on a writer without fault the call returns no error and the
bytes written grow by exactly that line. -/
theorem writeRemoteReqFirstLine_writes_line (w : Bufio.Writer) (req : request)
    (hw : Spec.noFault w) :
    (writeRemoteReqFirstLine w req).1 = false ∧
      (writeRemoteReqFirstLine w req).2.written =
        w.written ++ (req.method ++ [' '] ++
          ((if req.path = [] then ['/'] else req.path) ++
            (if req.query = [] then [] else '?' :: req.query)) ++
          [' '] ++ req.protocol ++ ['\r', '\n']) ∧
      (writeRemoteReqFirstLine w req).2.out = w.out := by
  rw [writeRemoteReqFirstLine_eq, (Bufio.WriteString_noFault w _ hw).1]
  simp [Bufio.Writer.written, Spec.requestFirstLine, Spec.requestTarget]

/-- C11 (witness): a request with an empty path and the query `k=v` is sent as
`GET /?k=v HTTP/1.1\r\n`. -/
theorem writeRemoteReqFirstLine_writes_line_witness :
    (writeRemoteReqFirstLine {}
      { method := "GET".toList, scheme := "http".toList, host := "h".toList, port := 80,
        path := [], query := "k=v".toList, protocol := "HTTP/1.1".toList }).1 = false ∧
    (writeRemoteReqFirstLine {}
      { method := "GET".toList, scheme := "http".toList, host := "h".toList, port := 80,
        path := [], query := "k=v".toList, protocol := "HTTP/1.1".toList }).2.written =
      "GET /?k=v HTTP/1.1\r\n".toList ∧
    (writeRemoteReqFirstLine {}
      { method := "GET".toList, scheme := "http".toList, host := "h".toList, port := 80,
        path := [], query := "k=v".toList, protocol := "HTTP/1.1".toList }).2.out = [] :=
  writeRemoteReqFirstLine_writes_line {}
    { method := "GET".toList, scheme := "http".toList, host := "h".toList, port := 80,
      path := [], query := "k=v".toList, protocol := "HTTP/1.1".toList } (by decide)

theorem responseConnectReq_noFault (w : Bufio.Writer) (req : request) (hw : Spec.noFault w) :
    ∃ w1, responseConnectReq w req = (false, w1) ∧ Spec.noFault w1 ∧
      w1.out = w.out ++ w.buf ++ Spec.connectResponse req.protocol ∧ w1.buf = [] := by
  obtain ⟨e1, hw1⟩ := Bufio.WriteString_noFault w
    (req.protocol ++ " 200 Connection established\r\n".toList) hw
  obtain ⟨e2, hw2⟩ := Bufio.WriteString_noFault _ ['\r', '\n'] hw1
  obtain ⟨e3, hw3⟩ := Bufio.Flush_noFault _ hw2
  refine ⟨_, ?_, hw3, ?_, rfl⟩
  · simp only [responseConnectReq, e1, e2, e3]
  · simp [Spec.connectResponse]

/-- C12: for every request with protocol `P` (a `CONNECT` request in
particular) and every client writer on which no write fails,
`responseConnectReq` returns no error, the bytes it adds to the writer are
exactly `P 200 Connection established\r\n\r\n`, and all of them are flushed. -/
theorem responseConnectReq_writes_established (w : Bufio.Writer) (req : request)
    (hw : Spec.noFault w) :
    (responseConnectReq w req).1 = false ∧
      (responseConnectReq w req).2.written =
        w.written ++ (req.protocol ++ " 200 Connection established\r\n\r\n".toList) ∧
      (responseConnectReq w req).2.buf = [] := by
  obtain ⟨w1, e, _, ho, hb⟩ := responseConnectReq_noFault w req hw
  rw [e]
  refine ⟨rfl, ?_, hb⟩
  simp only [Bufio.Writer.written, ho, hb, Spec.connectResponse]
  simp

/-- C12 (witness): the answer to `CONNECT www.google.com:443 HTTP/1.0`. -/
theorem responseConnectReq_writes_established_witness :
    (responseConnectReq {}
      { method := "CONNECT".toList, scheme := [], host := "www.google.com".toList, port := 443,
        path := [], query := [], protocol := "HTTP/1.0".toList }).1 = false ∧
    (responseConnectReq {}
      { method := "CONNECT".toList, scheme := [], host := "www.google.com".toList, port := 443,
        path := [], query := [], protocol := "HTTP/1.0".toList }).2.written =
      "HTTP/1.0 200 Connection established\r\n\r\n".toList ∧
    (responseConnectReq {}
      { method := "CONNECT".toList, scheme := [], host := "www.google.com".toList, port := 443,
        path := [], query := [], protocol := "HTTP/1.0".toList }).2.buf = [] :=
  responseConnectReq_writes_established {}
    { method := "CONNECT".toList, scheme := [], host := "www.google.com".toList, port := 443,
      path := [], query := [], protocol := "HTTP/1.0".toList } (by decide)

end Httpproxy

/-! ## Theorems: the request body (`transferFixedRequestBody`) -/

namespace Bufio

theorem ReadFull_enough (r : Reader) (n : Nat) (h : n ≤ r.data.length) :
    r.ReadFull n = ((r.data.take n, false), { r with data := r.data.drop n }) := by
  simp [Reader.ReadFull, h]

theorem ReadFull_short (r : Reader) (n : Nat) (h : r.data.length < n) :
    r.ReadFull n = ((r.data, true), { r with data := [] }) := by
  have : ¬ n ≤ r.data.length := by omega
  simp [Reader.ReadFull, this]

end Bufio

namespace Httpproxy

theorem Atoi_of_base10Int (v : Str) (N : Int) (hv : Spec.base10Int v = some N)
    (hf : Spec.fitsInt N) : Strconv.Atoi v = some N := by
  rw [Strconv.Atoi_eq, hv, Option.some_bind, if_pos hf]

theorem transferFixedRequestBody_none (r : Bufio.Reader) (w : Bufio.Writer) :
    ∀ hs : List header, Spec.contentLength hs = none →
      transferFixedRequestBody r w hs = (StepEnd.ok, r, w) := by
  intro hs
  induction hs with
  | nil => intro _; rfl
  | cons h hs ih =>
    intro hn
    by_cases hc : h.name = "Content-Length".toList
    · simp only [Spec.contentLength, if_pos hc, reduceCtorEq] at hn
    · have hn2 : Spec.contentLength hs = none := by
        simpa only [Spec.contentLength, if_neg hc] using hn
      simp only [transferFixedRequestBody, if_neg hc]
      exact ih hn2

theorem transferFixedRequestBody_first (r : Bufio.Reader) (w : Bufio.Writer) (v : Str) :
    ∀ hs : List header, Spec.contentLength hs = some v →
      transferFixedRequestBody r w hs =
        transferFixedRequestBody r w [⟨"Content-Length".toList, v⟩] := by
  intro hs
  induction hs with
  | nil => intro hn; simp [Spec.contentLength] at hn
  | cons h hs ih =>
    intro hn
    by_cases hc : h.name = "Content-Length".toList
    · have hv : h.value = v := by
        simpa only [Spec.contentLength, if_pos hc, Option.some.injEq] using hn
      simp only [transferFixedRequestBody, if_pos hc, hv, if_true]
    · have hn2 : Spec.contentLength hs = some v := by
        simpa only [Spec.contentLength, if_neg hc] using hn
      simp only [transferFixedRequestBody, if_neg hc]
      exact ih hn2

theorem makeslice_within (N : Nat) (h : N ≤ Runtime.maxAlloc) :
    Runtime.makeslice (N : Int) = some N := by
  unfold Runtime.makeslice
  have hn : ¬ ((N : Int) < 0 ∨ (Runtime.maxAlloc : Int) < (N : Int)) := by omega
  rw [if_neg hn, Int.toNat_natCast]

theorem makeslice_above (N : Nat) (h : Runtime.maxAlloc < N) :
    Runtime.makeslice (N : Int) = none := by
  unfold Runtime.makeslice
  have hn : (N : Int) < 0 ∨ (Runtime.maxAlloc : Int) < (N : Int) := Or.inr (by omega)
  rw [if_pos hn]

theorem maxAlloc_lt : Runtime.maxAlloc < 2 ^ 63 := by
  unfold Runtime.maxAlloc
  norm_num

theorem transferFixedRequestBody_enough (r : Bufio.Reader) (w : Bufio.Writer) (v : Str) (N : Nat)
    (hv : Strconv.Atoi v = some (N : Int)) (hmax : N ≤ Runtime.maxAlloc)
    (hlen : N ≤ r.data.length) (hw : Spec.noFault w) :
    ∃ w1, transferFixedRequestBody r w [⟨"Content-Length".toList, v⟩] =
        (StepEnd.ok, { r with data := r.data.drop N }, w1) ∧
      w1.out = w.out ++ w.buf ++ r.data.take N ∧ w1.buf = [] ∧ Spec.noFault w1 := by
  obtain ⟨e1, hw1⟩ := Bufio.WriteString_noFault w (r.data.take N) hw
  obtain ⟨e2, hw2⟩ := Bufio.Flush_noFault _ hw1
  refine ⟨_, ?_, ?_, rfl, hw2⟩
  · rw [transferFixedRequestBody]
    simp only [if_true, hv]
    rw [makeslice_within N hmax]
    simp only
    rw [Bufio.ReadFull_enough r N hlen]
    simp only [e1, e2]
  · simp only [List.append_assoc]

theorem transferFixedRequestBody_short (r : Bufio.Reader) (w : Bufio.Writer) (v : Str) (N : Nat)
    (hv : Spec.base10Int v = some (N : Int)) (hmax : N ≤ Runtime.maxAlloc)
    (hlen : r.data.length < N) :
    ∃ r1, transferFixedRequestBody r w [⟨"Content-Length".toList, v⟩] = (StepEnd.error, r1, w) := by
  have hf : Spec.fitsInt (N : Int) := fitsInt_of_lt N (lt_of_le_of_lt hmax maxAlloc_lt)
  have ha := Atoi_of_base10Int v N hv hf
  rw [transferFixedRequestBody]
  simp only [if_true, ha]
  rw [makeslice_within N hmax]
  simp only
  rw [Bufio.ReadFull_short r N hlen]
  exact ⟨_, rfl⟩

/-- Above the allocation limit and inside the range of `int`, whatever the
stream holds: `Atoi` succeeds, `make` panics, and nothing is read or
written. -/
theorem transferFixedRequestBody_above_limit (r : Bufio.Reader) (w : Bufio.Writer)
    (hs : List header) (v : Str) (N : Nat) (hc : Spec.contentLength hs = some v)
    (hv : Spec.base10Int v = some (N : Int)) (hmax : Runtime.maxAlloc < N)
    (hf : Spec.fitsInt (N : Int)) :
    transferFixedRequestBody r w hs = (StepEnd.panic, r, w) := by
  rw [transferFixedRequestBody_first r w v hs hc]
  have ha := Atoi_of_base10Int v N hv hf
  rw [transferFixedRequestBody]
  simp only [if_true, ha]
  rw [makeslice_above N hmax]

/-- Within the allocation limit the request body is forwarded as the
specification says.  When the first header named `Content-Length` has as value
a base-10 integer `N >= 0` that is at most `Runtime.maxAlloc`: if the stream
holds at least `N` bytes and no write fails, `transferFixedRequestBody`
succeeds, the bytes it adds to the upstream writer are exactly the first `N`
bytes of the stream, all flushed, and the rest of the stream is left unread;
if the stream holds fewer than `N` bytes, it returns an error and the upstream
writer is left as it was.  When no header is named `Content-Length`, it
succeeds and leaves the stream and the writer as they were. -/
theorem transferFixedRequestBody_within_limit (r : Bufio.Reader) (w : Bufio.Writer)
    (hs : List header) :
    (∀ (v : Str) (N : Nat), Spec.contentLength hs = some v →
        Spec.base10Int v = some (N : Int) → N ≤ Runtime.maxAlloc →
      (N ≤ r.data.length → Spec.noFault w →
        (transferFixedRequestBody r w hs).1 = StepEnd.ok ∧
        (transferFixedRequestBody r w hs).2.1 = { r with data := r.data.drop N } ∧
        (transferFixedRequestBody r w hs).2.2.written = w.written ++ r.data.take N ∧
        (transferFixedRequestBody r w hs).2.2.buf = []) ∧
      (r.data.length < N →
        (transferFixedRequestBody r w hs).1 = StepEnd.error ∧
        (transferFixedRequestBody r w hs).2.2 = w)) ∧
    (Spec.contentLength hs = none → transferFixedRequestBody r w hs = (StepEnd.ok, r, w)) := by
  refine ⟨?_, transferFixedRequestBody_none r w hs⟩
  intro v N hc hv hmax
  rw [transferFixedRequestBody_first r w v hs hc]
  have hf : Spec.fitsInt (N : Int) := fitsInt_of_lt N (lt_of_le_of_lt hmax maxAlloc_lt)
  refine ⟨?_, ?_⟩
  · intro hlen hw
    obtain ⟨w1, e, ho, hb, _⟩ := transferFixedRequestBody_enough r w v N
      (Atoi_of_base10Int v N hv hf) hmax hlen hw
    rw [e]
    refine ⟨rfl, rfl, ?_, hb⟩
    simp [Bufio.Writer.written, ho, hb]
  · intro hlen
    obtain ⟨r1, e⟩ := transferFixedRequestBody_short r w v N hv hmax hlen
    rw [e]
    exact ⟨rfl, rfl⟩

/-- An instance of the above: with `Content-Length: 5` and the stream
`hello, world` the five bytes `hello` are forwarded and `, world` is left;
with the stream `hel` the call returns an error and writes nothing. -/
theorem transferFixedRequestBody_within_limit_example :
    transferFixedRequestBody { data := "hello, world".toList } {}
        [⟨"Host".toList, "h".toList⟩, ⟨"Content-Length".toList, "5".toList⟩] =
      (StepEnd.ok, { data := ", world".toList }, { out := "hello".toList }) ∧
    transferFixedRequestBody { data := "hel".toList } {}
        [⟨"Host".toList, "h".toList⟩, ⟨"Content-Length".toList, "5".toList⟩] =
      (StepEnd.error, { data := [] }, {}) := by
  decide

/-- C13 (the code at the failing input): the header
`Content-Length: 9223372036854775807` holds a base-10 integer `N >= 0` and the
stream `body` ends before `N` bytes.  `Atoi` succeeds, the length is above the
allocation limit and `make` panics: `transferFixedRequestBody` ends in a
run-time panic, where the claim has it fail with an error, and so does the
session that forwards such a request, whatever the order of the relay would
be. -/
theorem transferFixedRequestBody_panics_above_limit :
    Spec.contentLength [⟨"Content-Length".toList, "9223372036854775807".toList⟩] =
      some "9223372036854775807".toList ∧
    Spec.base10Int "9223372036854775807".toList = some 9223372036854775807 ∧
    "body".toList.length < 9223372036854775807 ∧
    Strconv.Atoi "9223372036854775807".toList = some 9223372036854775807 ∧
    Runtime.makeslice 9223372036854775807 = none ∧
    transferFixedRequestBody { data := "body".toList } {}
        [⟨"Content-Length".toList, "9223372036854775807".toList⟩] =
      (StepEnd.panic, { data := "body".toList }, {}) ∧
    ∀ order : Interleaving,
      (process order (fun _ _ => some { reader := { data := [] }, writer := {} })
        { reader := { data := "POST http://h/ HTTP/1.1\r\n".toList ++
            "Content-Length: 9223372036854775807\r\n\r\nbody".toList },
          writer := {} }).result = StepEnd.panic := by
  refine ⟨by decide, by decide, by decide, by decide, by decide, by decide, ?_⟩
  intro order
  cases order <;> decide

end Httpproxy

/-! ## Theorems: the copy loop (`transferData`) -/

namespace Bufio

theorem Read_empty (r : Reader) (size : Nat) (h : r.data = []) :
    r.Read size = (([], some r.ending), r) := by
  simp [Reader.Read, h]

theorem Read_nonempty (r : Reader) (size : Nat) (hs : 0 < size) (h : r.data ≠ []) :
    ∃ n, 1 ≤ n ∧ n ≤ size ∧ n ≤ r.data.length ∧
      r.Read size = ((r.data.take n, none), { r with data := r.data.drop n,
                                                     chunks := r.chunks.tail }) := by
  have hpos : 0 < r.data.length := List.length_pos.2 h
  unfold Reader.Read
  rw [if_neg h]
  cases hc : r.chunks with
  | nil =>
    refine ⟨min size r.data.length, ?_, ?_, ?_, ?_⟩
    · omega
    · omega
    · omega
    · simp
  | cons k t =>
    refine ⟨max 1 (min k (min size r.data.length)), ?_, ?_, ?_, ?_⟩
    · omega
    · omega
    · omega
    · simp

end Bufio

namespace Httpproxy

theorem writeChunk_nil (w : Bufio.Writer) : writeChunk w [] = (false, w) := by
  simp [writeChunk]

theorem writeChunk_noFault (w : Bufio.Writer) (bytes : Str) (hw : Spec.noFault w) :
    ∃ w1, writeChunk w bytes = (false, w1) ∧ Spec.noFault w1 ∧
      w1.written = w.written ++ bytes ∧ (bytes ≠ [] → w1.buf = []) := by
  by_cases hb : bytes = []
  · subst hb
    exact ⟨w, writeChunk_nil w, hw, by simp, fun h => absurd rfl h⟩
  · have hlen : bytes.length > 0 := List.length_pos.2 hb
    obtain ⟨e1, hw1⟩ := Bufio.WriteString_noFault w bytes hw
    obtain ⟨e2, hw2⟩ := Bufio.Flush_noFault _ hw1
    refine ⟨_, ?_, hw2, ?_, fun _ => rfl⟩
    · simp only [writeChunk, if_pos hlen, e1, e2]
    · simp [Bufio.Writer.written]

/-- With no bound, a stream that ends in `io.EOF` and a writer without fault,
the loop copies all that is left of the stream and ends with `io.EOF`. -/
theorem transferDataLoop_unbounded : ∀ (n : Nat) (source : Bufio.Reader) (dest : Bufio.Writer)
    (total : Int), source.data.length < n → source.eof = true → Spec.noFault dest →
    ∃ s1 d1, transferDataLoop n source dest 0 total = (TransferEnd.eof, s1, d1) ∧
      s1.data = [] ∧ d1.written = dest.written ++ source.data ∧ Spec.noFault d1 := by
  intro n
  induction n with
  | zero => intro source dest total h; omega
  | succ n ih =>
    intro source dest total hn he hw
    by_cases hd : source.data = []
    · refine ⟨source, dest, ?_, hd, by simp [hd], hw⟩
      have hend : source.ending = Bufio.ReadErr.eof := by simp [Bufio.Reader.ending, he]
      simp only [transferDataLoop, Bufio.Read_empty source 8192 hd, hend, writeChunk_nil]
      simp
    · obtain ⟨k, hk1, _, hk3, hr⟩ := Bufio.Read_nonempty source 8192 (by norm_num) hd
      obtain ⟨w1, ew, hw1, hwr, _⟩ := writeChunk_noFault dest (source.data.take k) hw
      have hlen : (source.data.drop k).length < n := by
        simp only [List.length_drop]; omega
      obtain ⟨s1, d1, e, hs1, hd1, hwd1⟩ := ih
        { source with data := source.data.drop k, chunks := source.chunks.tail } w1
        (total + ((source.data.take k).length : Int)) hlen he hw1
      refine ⟨s1, d1, ?_, hs1, ?_, hwd1⟩
      · simp only [transferDataLoop, hr, ew]
        simpa using e
      · rw [hd1, hwr, List.append_assoc, List.take_append_drop]

end Httpproxy

namespace Httpproxy

/-- With a bound `N > 0` not yet reached, enough bytes left in the stream and
a writer without fault, the loop ends with `nil` after copying `L` bytes, where
`L` is at least what was missing and less than that plus the size of the
buffer. -/
theorem transferDataLoop_bounded : ∀ (n : Nat) (source : Bufio.Reader) (dest : Bufio.Writer)
    (N T : Nat), source.data.length < n → T < N → N - T ≤ source.data.length →
    Spec.noFault dest →
    ∃ L s1 d1, transferDataLoop n source dest (N : Int) (T : Int) = (TransferEnd.bound, s1, d1) ∧
      N - T ≤ L ∧ L < N - T + 8192 ∧ L ≤ source.data.length ∧
      s1.data = source.data.drop L ∧ d1.written = dest.written ++ source.data.take L ∧
      d1.buf = [] ∧ Spec.noFault d1 := by
  intro n
  induction n with
  | zero => intro source dest N T h; omega
  | succ n ih =>
    intro source dest N T hn hT hlen hw
    have hd : source.data ≠ [] := by
      intro h
      rw [h] at hlen
      simp at hlen
      omega
    obtain ⟨k, hk1, hk2, hk3, hr⟩ := Bufio.Read_nonempty source 8192 (by norm_num) hd
    have htk : (source.data.take k).length = k := by
      rw [List.length_take]; omega
    have hne : source.data.take k ≠ [] := by
      intro h
      rw [h] at htk
      simp at htk
      omega
    obtain ⟨w1, ew, hw1, hwr, hbuf⟩ := writeChunk_noFault dest (source.data.take k) hw
    by_cases hreach : N ≤ T + k
    · refine ⟨k, { source with data := source.data.drop k, chunks := source.chunks.tail }, w1,
        ?_, by omega, by omega, hk3, rfl, hwr, hbuf hne, hw1⟩
      have hcond : ((N : Int) ≠ 0 ∧ (T : Int) + ((source.data.take k).length : Int) ≥ (N : Int)) := by
        rw [htk]
        constructor <;> omega
      simp only [transferDataLoop, hr, ew, reduceCtorEq, if_false, if_pos hcond]
    · have hcond : ¬ ((N : Int) ≠ 0 ∧
          (T : Int) + ((source.data.take k).length : Int) ≥ (N : Int)) := by
        rw [htk]
        intro h
        have := h.2
        omega
      have hlen2 : (source.data.drop k).length < n := by
        simp only [List.length_drop]; omega
      have hrem : N - (T + k) ≤ (source.data.drop k).length := by
        simp only [List.length_drop]; omega
      obtain ⟨L, s1, d1, e, h1, h2, h3, h4, h5, h6, h7⟩ := ih
        { source with data := source.data.drop k, chunks := source.chunks.tail } w1
        N (T + k) hlen2 (by omega) hrem hw1
      simp only [List.length_drop] at h3
      refine ⟨k + L, s1, d1, ?_, by omega, by omega, by omega, ?_, ?_, h6, h7⟩
      · simp only [transferDataLoop, hr, ew, reduceCtorEq, if_false, if_neg hcond]
        rw [htk]
        have hcast : (T : Int) + (k : Int) = ((T + k : Nat) : Int) := by push_cast; rfl
        rw [hcast]
        exact e
      · rw [h4]
        simp only [List.drop_drop]
      · rw [h5, hwr, List.append_assoc]
        congr 1
        simp only
        rw [List.take_add]

/-- C14 (amended): for every bound `N > 0`, every source stream holding at
least `N` bytes, every way the reads are chunked and every destination on which
no write fails, `transferData` with size `N` returns `nil` after copying a
prefix of the source of some length `L` with `N <= L < N + 8192`: it stops
after the read with which the total reaches `N` and writes that read whole.
What follows the prefix is left unread.  When the source holds exactly `N`
bytes, exactly those `N` bytes are written. -/
theorem transferData_reaches_bound (source : Bufio.Reader) (dest : Bufio.Writer) (N : Nat)
    (hN : 0 < N) (hlen : N ≤ source.data.length) (hw : Spec.noFault dest) :
    ∃ L, N ≤ L ∧ L < N + 8192 ∧ L ≤ source.data.length ∧
      (transferData source dest (N : Int)).1 = TransferEnd.bound ∧
      (transferData source dest (N : Int)).2.1.data = source.data.drop L ∧
      (transferData source dest (N : Int)).2.2.written = dest.written ++ source.data.take L ∧
      (source.data.length = N → L = N) := by
  obtain ⟨L, s1, d1, e, h1, h2, h3, h4, h5, _, _⟩ := transferDataLoop_bounded
    (source.data.length + 1) source dest N 0 (Nat.lt_succ_self _) hN (by omega) hw
  rw [show ((0 : Nat) : Int) = 0 from rfl] at e
  refine ⟨L, by omega, by omega, h3, ?_, ?_, ?_, fun h => by omega⟩
  · simp only [transferData]
    rw [e]
  · simp only [transferData]
    rw [e]; exact h4
  · simp only [transferData]
    rw [e]; exact h5

/-- C14 (witness): the stream `hello, world` read in chunks of 4 bytes, with
the bound 5. -/
theorem transferData_reaches_bound_witness :
    ∃ L, 5 ≤ L ∧ L < 5 + 8192 ∧ L ≤ "hello, world".toList.length ∧
      (transferData { data := "hello, world".toList, chunks := [4, 4, 4] } {} ((5 : Nat) : Int)).1
        = TransferEnd.bound ∧
      (transferData { data := "hello, world".toList, chunks := [4, 4, 4] } {}
        ((5 : Nat) : Int)).2.1.data = "hello, world".toList.drop L ∧
      (transferData { data := "hello, world".toList, chunks := [4, 4, 4] } {}
        ((5 : Nat) : Int)).2.2.written = [] ++ "hello, world".toList.take L ∧
      ("hello, world".toList.length = 5 → L = 5) :=
  transferData_reaches_bound { data := "hello, world".toList, chunks := [4, 4, 4] } {} 5
    (by decide) (by decide) (by decide)

/-- C14 (counterexample): the stream `abcdef` holds at least 3 bytes and is
read in chunks of 2 bytes; `transferData` with size 3 returns `nil` after
writing the 4 bytes `abcd`, more than the bound. -/
theorem transferData_writes_past_bound :
    transferData { data := "abcdef".toList, chunks := [2, 2, 2] } {} 3 =
      (TransferEnd.bound, { data := "ef".toList, chunks := [2] }, { out := "abcd".toList }) ∧
    "abcd".toList ≠ "abcdef".toList.take 3 ∧ 3 < "abcd".toList.length := by
  decide

/-- C16: for size 0, every source stream that ends with `io.EOF`, every way
the reads are chunked and every destination on which no write fails,
`transferData` ends (within the rounds it allows, and with the same result
under any larger number of rounds), its result is `io.EOF`, the stream is read
to its end, and the bytes added to the destination are exactly the bytes of
the source, in order. -/
theorem transferData_unbounded_copies_all (source : Bufio.Reader) (dest : Bufio.Writer)
    (he : source.eof = true) (hw : Spec.noFault dest) :
    (transferData source dest 0).1 = TransferEnd.eof ∧
      (transferData source dest 0).2.1.data = [] ∧
      (transferData source dest 0).2.2.written = dest.written ++ source.data ∧
      ∀ n, source.data.length < n →
        transferDataLoop n source dest 0 0 = transferData source dest 0 := by
  obtain ⟨s1, d1, e, h1, h2, _⟩ := transferDataLoop_unbounded (source.data.length + 1) source
    dest 0 (Nat.lt_succ_self _) he hw
  refine ⟨?_, ?_, ?_, fun n hn => transferData_fuel source dest 0 n hn⟩
  · simp only [transferData]
    rw [e]
  · simp only [transferData]
    rw [e]; exact h1
  · simp only [transferData]
    rw [e]; exact h2

/-- C16 (witness): the stream `hello, world` read in chunks of 5 bytes. -/
theorem transferData_unbounded_copies_all_witness :
    (transferData { data := "hello, world".toList, chunks := [5, 5, 5] } {} 0).1 =
        TransferEnd.eof ∧
      (transferData { data := "hello, world".toList, chunks := [5, 5, 5] } {} 0).2.1.data = [] ∧
      (transferData { data := "hello, world".toList, chunks := [5, 5, 5] } {} 0).2.2.written =
        [] ++ "hello, world".toList ∧
      ∀ n, "hello, world".toList.length < n →
        transferDataLoop n { data := "hello, world".toList, chunks := [5, 5, 5] } {} 0 0 =
          transferData { data := "hello, world".toList, chunks := [5, 5, 5] } {} 0 :=
  transferData_unbounded_copies_all { data := "hello, world".toList, chunks := [5, 5, 5] } {}
    (by decide) (by decide)

end Httpproxy

/-! ## Theorems: sessions, the relay and what goes wrong -/

namespace Httpproxy

/-- C20 (the code at the failing input): with the header `Content-Length: -1`
`Atoi` succeeds with -1 and the allocation of the buffer panics:
`transferFixedRequestBody` ends in a run-time panic, not in an error, and so
does the session that forwards such a request, whatever the order of the relay
would be. -/
theorem transferFixedRequestBody_panics_on_negative_length :
    Strconv.Atoi "-1".toList = some (-1) ∧
    transferFixedRequestBody { data := "body".toList } {}
        [⟨"Content-Length".toList, "-1".toList⟩] =
      (StepEnd.panic, { data := "body".toList }, {}) ∧
    ∀ order : Interleaving,
      (process order (fun _ _ => some { reader := { data := [] }, writer := {} })
        { reader := { data := "POST http://h/ HTTP/1.1\r\nContent-Length: -1\r\n\r\nbody".toList },
          writer := {} }).result = StepEnd.panic := by
  refine ⟨by decide, by decide, ?_⟩
  intro order
  cases order <;> decide

end Httpproxy

namespace Bufio

theorem WriteString_written (w : Writer) (s : Str) :
    ((w.WriteString s).1 = true ∧ (w.WriteString s).2.written = w.written) ∨
      ((w.WriteString s).1 = false ∧ (w.WriteString s).2.written = w.written ++ s) := by
  unfold Writer.WriteString
  by_cases he : w.err = true
  · left; simp [he]
  · simp only [he, Bool.false_eq_true, if_false]
    match w.faults with
    | [] => right; simp [Writer.written]
    | true :: fs => left; simp [Writer.written]
    | false :: fs => right; simp [Writer.written]

theorem Flush_written (w : Writer) : (w.Flush).2.written = w.written := by
  unfold Writer.Flush
  by_cases he : w.err = true
  · simp [he]
  · simp only [he, Bool.false_eq_true, if_false]
    match w.faults with
    | [] => simp [Writer.written]
    | true :: fs => simp [Writer.written]
    | false :: fs => simp [Writer.written]

theorem ending_cases (r : Reader) : r.ending = ReadErr.eof ∨ r.ending = ReadErr.other := by
  unfold Reader.ending
  cases r.eof <;> simp

end Bufio

namespace Httpproxy

theorem writeChunk_written (w : Bufio.Writer) (bytes : Str) :
    (writeChunk w bytes).2.written = w.written ++ bytes ∨
      ((writeChunk w bytes).1 = true ∧ (writeChunk w bytes).2.written = w.written) := by
  unfold writeChunk
  by_cases hb : bytes.length > 0
  · rw [if_pos hb]
    cases hws : w.WriteString bytes with
    | mk b w1 =>
      rcases Bufio.WriteString_written w bytes with ⟨h1, h2⟩ | ⟨h1, h2⟩
      · rw [hws] at h1 h2
        simp only at h1 h2
        subst h1
        right; exact ⟨rfl, h2⟩
      · rw [hws] at h1 h2
        simp only at h1 h2
        subst h1
        left; simp only; rw [Bufio.Flush_written]; exact h2
  · rw [if_neg hb]
    have : bytes = [] := List.length_eq_zero.1 (by omega)
    left; simp [this]

/-- Under a bound `N > 0` not yet reached, whatever the stream and the writer
do, the loop adds to the writer a prefix of the stream shorter than what was
missing plus the size of the buffer. -/
theorem transferDataLoop_prefix : ∀ (n : Nat) (source : Bufio.Reader) (dest : Bufio.Writer)
    (N T : Nat), T < N →
    ∃ L, L < N - T + 8192 ∧
      (transferDataLoop n source dest (N : Int) (T : Int)).2.2.written =
        dest.written ++ source.data.take L := by
  intro n
  induction n with
  | zero =>
    intro source dest N T hT
    exact ⟨0, by omega, by simp [transferDataLoop]⟩
  | succ n ih =>
    intro source dest N T hT
    by_cases hd : source.data = []
    · refine ⟨0, by omega, ?_⟩
      simp only [transferDataLoop, Bufio.Read_empty source 8192 hd, writeChunk_nil]
      have hcond : ¬ ((N : Int) ≠ 0 ∧ (T : Int) + (([] : Str).length : Int) ≥ (N : Int)) := by
        intro h
        have := h.2
        simp only [List.length_nil] at this
        omega
      rw [if_neg hcond]
      rcases Bufio.ending_cases source with h | h <;> simp [h]
    · obtain ⟨k, hk1, hk2, hk3, hr⟩ := Bufio.Read_nonempty source 8192 (by norm_num) hd
      have htk : (source.data.take k).length = k := by
        rw [List.length_take]; omega
      simp only [transferDataLoop, hr, reduceCtorEq, if_false]
      cases hwc : writeChunk dest (source.data.take k) with
      | mk b w1 =>
        have hwr := writeChunk_written dest (source.data.take k)
        rw [hwc] at hwr
        simp only at hwr
        cases b with
        | true =>
          simp only
          rcases hwr with h | ⟨_, h⟩
          · exact ⟨k, by omega, h⟩
          · exact ⟨0, by omega, by simp [h]⟩
        | false =>
          simp only
          have h : w1.written = dest.written ++ source.data.take k := by
            rcases hwr with h | ⟨h0, _⟩
            · exact h
            · cases h0
          by_cases hcond : ((N : Int) ≠ 0 ∧
              (T : Int) + ((source.data.take k).length : Int) ≥ (N : Int))
          · rw [if_pos hcond]
            exact ⟨k, by omega, h⟩
          · rw [if_neg hcond]
            have hlt : T + k < N := by
              rw [htk] at hcond
              by_contra hge
              apply hcond
              constructor <;> omega
            obtain ⟨L, hL, e⟩ := ih
              { source with data := source.data.drop k, chunks := source.chunks.tail } w1
              N (T + k) hlt
            rw [htk]
            have hcast : (T : Int) + (k : Int) = ((T + k : Nat) : Int) := by push_cast; rfl
            rw [hcast, e]
            refine ⟨k + L, by omega, ?_⟩
            rw [h, List.append_assoc]
            congr 1
            simp only
            rw [List.take_add]

theorem remoteContentLen_of_contentLength : ∀ (hs : List header) (v : Str),
    Spec.contentLength hs = some v → remoteContentLen hs = Strconv.Atoi v := by
  intro hs
  induction hs with
  | nil => intro v h; simp [Spec.contentLength] at h
  | cons h hs ih =>
    intro v hv
    by_cases hc : h.name = "Content-Length".toList
    · simp only [Spec.contentLength, if_pos hc, Option.some.injEq] at hv
      simp only [remoteContentLen, if_pos hc, hv]
    · simp only [Spec.contentLength, if_neg hc] at hv
      simp only [remoteContentLen, if_neg hc]
      exact ih v hv

end Httpproxy

namespace Bufio

theorem WriteString_err (w : Writer) (s : Str) (h : (w.WriteString s).1 = true) :
    (w.WriteString s).2.err = true := by
  unfold Writer.WriteString at h ⊢
  by_cases he : w.err = true
  · simp [he]
  · simp only [he, Bool.false_eq_true, if_false] at h ⊢
    match hf : w.faults with
    | [] => rw [hf] at h; simp at h
    | true :: fs => simp
    | false :: fs => rw [hf] at h; simp at h

theorem Flush_of_err (w : Writer) (h : w.err = true) : w.Flush = (true, w) := by
  simp [Writer.Flush, h]

theorem WriteString_Flush_written (w w2 : Writer) (s : Str)
    (h : (w.WriteString s).2.Flush = (false, w2)) : w2.written = w.written ++ s := by
  rcases WriteString_written w s with ⟨h1, _⟩ | ⟨_, h2⟩
  · rw [Flush_of_err _ (WriteString_err w s h1)] at h
    simp at h
  · have h3 := Flush_written (w.WriteString s).2
    rw [h] at h3
    simp only at h3
    rw [h3, h2]

end Bufio

namespace Httpproxy

theorem writeHeadersLoop_written : ∀ (hs : List header) (w w1 : Bufio.Writer),
    writeHeadersLoop w hs = (false, w1) → w1.written = w.written ++ Spec.headerLines hs := by
  intro hs
  induction hs with
  | nil =>
    intro w w1 h
    simp only [writeHeadersLoop, Prod.mk.injEq, true_and] at h
    subst h
    simp [Spec.headerLines]
  | cons h hs ih =>
    intro w w1 e
    rw [writeHeadersLoop] at e
    cases hws : w.WriteString (h.name ++ [':', ' '] ++ h.value ++ ['\r', '\n']) with
    | mk b w0 =>
      rw [hws] at e
      cases b with
      | true => simp at e
      | false =>
        simp only at e
        have h3 := ih w0 w1 e
        rcases Bufio.WriteString_written w (h.name ++ [':', ' '] ++ h.value ++ ['\r', '\n'])
          with ⟨h1, _⟩ | ⟨_, h2⟩
        · rw [hws] at h1
          cases h1
        · rw [hws] at h2
          simp only at h2
          rw [h3, h2]
          simp [Spec.headerLines, Spec.headerLine]

theorem writeHeaders_written (hs : List header) (w w1 : Bufio.Writer)
    (e : writeHeaders w hs = (false, w1)) : w1.written = w.written ++ Spec.headerBlock hs := by
  rw [writeHeaders] at e
  cases hl : writeHeadersLoop w hs with
  | mk b w0 =>
    rw [hl] at e
    cases b with
    | true => simp at e
    | false =>
      simp only at e
      have h0 := writeHeadersLoop_written hs w w0 hl
      cases hws : w0.WriteString ['\r', '\n'] with
      | mk b2 w2 =>
        rw [hws] at e
        cases b2 with
        | true => simp at e
        | false =>
          simp only at e
          have h2 := Bufio.WriteString_Flush_written w0 w1 ['\r', '\n'] (by rw [hws]; exact e)
          rw [h2, h0, Spec.headerBlock]
          simp

theorem contentLength_withoutConnection : ∀ hs : List header,
    Spec.contentLength (Spec.withoutConnection hs) = Spec.contentLength hs := by
  intro hs
  induction hs with
  | nil => rfl
  | cons h hs ih =>
    by_cases hc : h.name = "Connection".toList
    · have hne : h.name ≠ "Content-Length".toList := by
        rw [hc]
        decide
      rw [withoutConnection_cons_pos h hs hc, ih]
      simp only [Spec.contentLength, if_neg hne]
    · rw [withoutConnection_cons_neg h hs hc]
      simp only [Spec.contentLength, ih]

/-- A session that is not a `CONNECT` and whose upstream answers with a status
line and a block of headers naming the length `N` either ends before the relay
with an error or a panic, or reaches the relay with the size `N`, the client
writer then holding the response head without its `Connection` lines. -/
theorem process_reaches_relay (order : Interleaving) (dial : Str → Int → Option Conn)
    (client remote : Conn) (req : request) (clientReader1 : Bufio.Reader)
    (statusLine : Str) (hs : List header) (body v : Str) (N : Nat)
    (hreq : buildReq client.reader = (some req, clientReader1))
    (hm : req.method ≠ "CONNECT".toList)
    (hdial : dial req.host req.port = some remote)
    (hdata : remote.reader.data = statusLine ++ ['\r', '\n'] ++ Spec.headerBlock hs ++ body)
    (hline : '\n' ∉ statusLine) (hwf : ∀ h ∈ hs, Spec.wellFormedHeader h)
    (hc : Spec.contentLength hs = some v) (hv : Spec.base10Int v = some (N : Int))
    (hf : Spec.fitsInt (N : Int)) :
    (process order dial client).result ≠ StepEnd.ok ∨
    ∃ (clientReader3 : Bufio.Reader) (clientWriter3 remoteWriter3 : Bufio.Writer),
      process order dial client = runRelay order [Event.dial req.host req.port]
        { reader := clientReader3, writer := clientWriter3 }
        { reader := { remote.reader with data := body }, writer := remoteWriter3 } (N : Int) ∧
      clientWriter3.written = client.writer.written ++ statusLine ++ ['\r', '\n'] ++
        Spec.headerBlock (Spec.withoutConnection hs) := by
  have hrl := readLine_of_crlf remote.reader statusLine (Spec.headerBlock hs ++ body)
    (by rw [hdata]; simp) hline
  have hrh := readHeaders_block hs body { remote.reader with data := Spec.headerBlock hs ++ body }
    hwf rfl
  have hcl : remoteContentLen (Spec.withoutConnection hs) = some (N : Int) := by
    rw [remoteContentLen_of_contentLength _ v (by rw [contentLength_withoutConnection]; exact hc)]
    exact Atoi_of_base10Int v N hv hf
  unfold process
  rw [hreq]
  simp only
  cases h1 : readHeaders clientReader1 with
  | mk o clientReader2 =>
  cases o with
  | none => left; simp
  | some clientHeaders =>
    simp only [hdial, if_neg hm]
    cases h2 : writeRemoteReqFirstLine remote.writer req with
    | mk b remoteWriter1 =>
    cases b with
    | true => left; simp
    | false =>
      simp only
      cases h3 : transferFixedRequestBody clientReader2
          (writeHeaders remoteWriter1 clientHeaders).2 clientHeaders with
      | mk e p =>
      obtain ⟨clientReader3, remoteWriter3⟩ := p
      cases e with
      | panic => left; simp
      | error => left; simp
      | ok =>
        simp only [hrl]
        cases h4 : (client.writer.WriteString (statusLine ++ ['\r', '\n'])).2.Flush with
        | mk b2 clientWriter2 =>
        cases b2 with
        | true => left; simp
        | false =>
          simp only [hrh]
          cases h5 : writeHeaders clientWriter2 (Spec.withoutConnection hs) with
          | mk b3 clientWriter3 =>
          cases b3 with
          | true => left; simp
          | false =>
            simp only [hcl]
            right
            refine ⟨clientReader3, clientWriter3, remoteWriter3, rfl, ?_⟩
            rw [writeHeaders_written _ _ _ h5, Bufio.WriteString_Flush_written _ _ _ h4]
            simp

/-- C15 (amended): for every session that is not a `CONNECT` and that
`process` ends without error, whose upstream answers with a status line and a
block of `Name: Value` lines (names and values without `": "` and line feed)
in which the first header named `Content-Length` has as value a base-10
integer `N > 0` that fits the `int`: `process` starts the relay with the size
`N`, and when it returns the client has been sent the status line, the header
lines other than `Connection`, the blank line, and then a prefix of what the
upstream sends after the head, of a length below `N + 8192`: the copy stops
after the read with which the count reaches `N` and writes that read whole. -/
theorem process_relay_bounded_by_content_length (order : Interleaving) (dial : Str → Int → Option Conn)
    (client remote : Conn) (req : request) (clientReader1 : Bufio.Reader)
    (statusLine : Str) (hs : List header) (body v : Str) (N : Nat)
    (hreq : buildReq client.reader = (some req, clientReader1))
    (hm : req.method ≠ "CONNECT".toList)
    (hdial : dial req.host req.port = some remote)
    (hdata : remote.reader.data = statusLine ++ ['\r', '\n'] ++ Spec.headerBlock hs ++ body)
    (hline : '\n' ∉ statusLine) (hwf : ∀ h ∈ hs, Spec.wellFormedHeader h)
    (hc : Spec.contentLength hs = some v) (hv : Spec.base10Int v = some (N : Int))
    (hN : 0 < N) (hf : Spec.fitsInt (N : Int))
    (hok : (process order dial client).result = StepEnd.ok) :
    Event.relayStarted (N : Int) ∈ (process order dial client).events ∧
    ∃ L, L < N + 8192 ∧
      (process order dial client).client.written =
        client.writer.written ++ statusLine ++ ['\r', '\n'] ++
          Spec.headerBlock (Spec.withoutConnection hs) ++ body.take L := by
  rcases process_reaches_relay order dial client remote req clientReader1 statusLine hs body v N
    hreq hm hdial hdata hline hwf hc hv hf with hne | ⟨cr3, cw3, rw3, e, hw⟩
  · exact absurd hok hne
  · rw [e]
    obtain ⟨L, hL, eL⟩ := transferDataLoop_prefix (body.length + 1)
      { remote.reader with data := body } cw3 N 0 hN
    rw [show ((0 : Nat) : Int) = 0 from rfl] at eL
    refine ⟨by simp [runRelay, relay], L, by omega, ?_⟩
    simp only [runRelay, relay, transferData]
    rw [eL, hw]

/-- C15 (witness): the upstream answers `Content-Length: 5` and sends
`hello, world` after the head, in reads of 4 bytes. -/
theorem process_relay_bounded_by_content_length_witness :
    Event.relayStarted ((5 : Nat) : Int) ∈
      (process Interleaving.downLast
        (fun _ _ => some
          { reader := { data := "HTTP/1.1 200 OK\r\nContent-Length: 5\r\n\r\nhello, world".toList,
                        chunks := [4, 4, 4] },
            writer := {} })
        { reader := { data := "GET http://h/ HTTP/1.1\r\nHost: h\r\n\r\n".toList },
          writer := {} }).events ∧
    ∃ L, L < 5 + 8192 ∧
      (process Interleaving.downLast
        (fun _ _ => some
          { reader := { data := "HTTP/1.1 200 OK\r\nContent-Length: 5\r\n\r\nhello, world".toList,
                        chunks := [4, 4, 4] },
            writer := {} })
        { reader := { data := "GET http://h/ HTTP/1.1\r\nHost: h\r\n\r\n".toList },
          writer := {} }).client.written =
        [] ++ "HTTP/1.1 200 OK".toList ++ ['\r', '\n'] ++
          Spec.headerBlock (Spec.withoutConnection [⟨"Content-Length".toList, "5".toList⟩]) ++
          "hello, world".toList.take L :=
  process_relay_bounded_by_content_length Interleaving.downLast
    (fun _ _ => some
      { reader := { data := "HTTP/1.1 200 OK\r\nContent-Length: 5\r\n\r\nhello, world".toList,
                    chunks := [4, 4, 4] },
        writer := {} })
    { reader := { data := "GET http://h/ HTTP/1.1\r\nHost: h\r\n\r\n".toList }, writer := {} }
    { reader := { data := "HTTP/1.1 200 OK\r\nContent-Length: 5\r\n\r\nhello, world".toList,
                  chunks := [4, 4, 4] },
      writer := {} }
    { method := "GET".toList, scheme := "http".toList, host := ['h'], port := 80,
      path := ['/'], query := [], protocol := "HTTP/1.1".toList }
    { data := "Host: h\r\n\r\n".toList }
    "HTTP/1.1 200 OK".toList [⟨"Content-Length".toList, "5".toList⟩] "hello, world".toList
    "5".toList 5 (by decide) (by decide) (by decide) (by decide) (by decide) (by decide)
    (by decide) (by decide) (by decide) (by decide) (by decide)

/-- C15 (counterexample): the upstream answers with `Content-Length: 0` and
then sends `EXTRA`; the response headers hold `Content-Length` with the value
0, the relay runs with size 0, that is without bound, and the client receives
the head followed by the 5 bytes `EXTRA`.  With `Content-Length: 3` followed by
`abcdef` the client receives all 6 bytes. -/
theorem process_relays_past_content_length_zero :
    (process Interleaving.downLast
        (fun _ _ => some
          { reader := { data := "HTTP/1.1 200 OK\r\nContent-Length: 0\r\n\r\nEXTRA".toList },
            writer := {} })
        { reader := { data := "GET http://h/ HTTP/1.1\r\nHost: h\r\n\r\n".toList },
          writer := {} }).client.written =
      "HTTP/1.1 200 OK\r\nContent-Length: 0\r\n\r\n".toList ++ "EXTRA".toList ∧
    Event.relayStarted 0 ∈ (process Interleaving.downLast
        (fun _ _ => some
          { reader := { data := "HTTP/1.1 200 OK\r\nContent-Length: 0\r\n\r\nEXTRA".toList },
            writer := {} })
        { reader := { data := "GET http://h/ HTTP/1.1\r\nHost: h\r\n\r\n".toList },
          writer := {} }).events ∧
    (process Interleaving.downLast
        (fun _ _ => some
          { reader := { data := "HTTP/1.1 200 OK\r\nContent-Length: 3\r\n\r\nabcdef".toList },
            writer := {} })
        { reader := { data := "GET http://h/ HTTP/1.1\r\nHost: h\r\n\r\n".toList },
          writer := {} }).client.written =
      "HTTP/1.1 200 OK\r\nContent-Length: 3\r\n\r\n".toList ++ "abcdef".toList := by
  decide

/-- C17 (the code at the failing input): the upstream connection breaks while
the client headers are flushed to it; `writeHeaders` returns an error, yet
`process` goes on, starts the relay and returns `nil`, whatever the order of
the relay. -/
theorem process_ignores_failed_header_write :
    (writeHeaders
        (writeRemoteReqFirstLine { faults := [false, false, false, true] }
          { method := "GET".toList, scheme := "http".toList, host := ['h'], port := 80,
            path := ['/'], query := [], protocol := "HTTP/1.1".toList }).2
        [⟨"Host".toList, ['h']⟩]).1 = true ∧
    ∀ order : Interleaving,
      (process order
          (fun _ _ => some
            { reader := { data := "HTTP/1.1 200 OK\r\n\r\n".toList },
              writer := { faults := [false, false, false, true] } })
          { reader := { data := "GET http://h/ HTTP/1.1\r\nHost: h\r\n\r\n".toList },
            writer := {} }).result = StepEnd.ok ∧
      Event.relayStarted 0 ∈ (process order
          (fun _ _ => some
            { reader := { data := "HTTP/1.1 200 OK\r\n\r\n".toList },
              writer := { faults := [false, false, false, true] } })
          { reader := { data := "GET http://h/ HTTP/1.1\r\nHost: h\r\n\r\n".toList },
            writer := {} }).events := by
  refine ⟨by decide, ?_⟩
  intro order
  cases order <;> decide

/-- C18 (the code at the failing inputs): a session whose request line is
`GET HTTP/1.1` returns an error without closing the client socket; a session
whose upstream was opened and answers `oops` without a line end returns an
error after the dial without closing either socket.  The order of the relay
plays no part: the relay is never reached. -/
theorem process_returns_error_without_closing :
    ∀ order : Interleaving,
      process order (fun _ _ => some { reader := { data := [] }, writer := {} })
          { reader := { data := "GET HTTP/1.1\r\n\r\n".toList }, writer := {} } =
        { result := StepEnd.error, events := [], client := {}, remote := none } ∧
      (process order (fun _ _ => some { reader := { data := "oops".toList }, writer := {} })
          { reader := { data := "GET http://h/ HTTP/1.1\r\n\r\n".toList },
            writer := {} }).result = StepEnd.error ∧
      (process order (fun _ _ => some { reader := { data := "oops".toList }, writer := {} })
          { reader := { data := "GET http://h/ HTTP/1.1\r\n\r\n".toList },
            writer := {} }).events = [Event.dial ['h'] 80] := by
  intro order
  cases order <;> decide

/-- The early close of the upstream socket is decided by what the shared `err`
holds at the test: the result of the copy from the upstream to the client when
its store falls between the store and the test of the other goroutine, the
result of the copy from the client to the upstream otherwise. -/
theorem relay_closes_on_shared_err (order : Interleaving) (client remote : Conn)
    (remoteDataSize : Int) :
    Event.closeRemote ∈ (relay order client remote remoteDataSize).2.1 ↔
      (if order = Interleaving.downBetween
        then (transferData remote.reader client.writer remoteDataSize).1
        else (transferData client.reader remote.writer 0).1) = TransferEnd.eof := by
  cases order <;>
    by_cases h1 : (transferData remote.reader client.writer remoteDataSize).1 = TransferEnd.eof <;>
    by_cases h2 : (transferData client.reader remote.writer 0).1 = TransferEnd.eof <;>
    simp [relay, Interleaving.steps, relayStep, h1, h2]

/-- C19 (the code at the failing input): the client sends `ping` and stays
open, the write to the upstream fails, and the upstream ends its stream.  The
copy from the client to the upstream returns a write error and the copy from
the upstream to the client returns `io.EOF`; when that `io.EOF` is stored in
the shared `err` before the first goroutine tests it, the upstream socket is
closed by the relay although the client has not ended its stream.  With the
same result of the first copy and a read error as the result of the second,
or with the store after the test, it is not closed: the close depends on the
result of the copy from the upstream to the client.  The same shows in the
events of a `CONNECT` session. -/
theorem relay_close_depends_on_upstream_copy :
    (relay Interleaving.downBetween
        { reader := { data := "ping".toList }, writer := {} }
        { reader := { data := [] }, writer := { faults := [true] } } 0).1 =
      (TransferEnd.writeError, TransferEnd.eof) ∧
    Event.closeRemote ∈ (relay Interleaving.downBetween
        { reader := { data := "ping".toList }, writer := {} }
        { reader := { data := [] }, writer := { faults := [true] } } 0).2.1 ∧
    (relay Interleaving.downBetween
        { reader := { data := "ping".toList }, writer := {} }
        { reader := { data := [], eof := false }, writer := { faults := [true] } } 0).1 =
      (TransferEnd.writeError, TransferEnd.readError) ∧
    Event.closeRemote ∉ (relay Interleaving.downBetween
        { reader := { data := "ping".toList }, writer := {} }
        { reader := { data := [], eof := false }, writer := { faults := [true] } } 0).2.1 ∧
    Event.closeRemote ∉ (relay Interleaving.downLast
        { reader := { data := "ping".toList }, writer := {} }
        { reader := { data := [] }, writer := { faults := [true] } } 0).2.1 ∧
    (process Interleaving.downBetween
        (fun _ _ => some { reader := { data := [] }, writer := { faults := [true] } })
        { reader := { data := "CONNECT h:443 HTTP/1.1\r\n\r\nping".toList },
          writer := {} }).events =
      [Event.dial ['h'] 443, Event.relayStarted 0, Event.closeRemote, Event.closeClient,
        Event.closeRemote] ∧
    (process Interleaving.downBetween
        (fun _ _ => some
          { reader := { data := [], eof := false }, writer := { faults := [true] } })
        { reader := { data := "CONNECT h:443 HTTP/1.1\r\n\r\nping".toList },
          writer := {} }).events =
      [Event.dial ['h'] 443, Event.relayStarted 0, Event.closeClient, Event.closeRemote] := by
  decide

end Httpproxy
